import Mathlib

/-!
# Fixed-point arithmetic of `vigra/fixedpoint.hxx`

A shallow embedding of the `FixedPoint<IntBits, FractionalBits>` class template and of the
free functions around it.

* The C++ type `int` is a 32-bit two's complement integer.  A value of type `int` is an
  `Int`, and every arithmetic operation of the source goes through `wrapInt32`, so that an
  overflowing operation wraps modulo `2^32`.
* The template arguments `IntBits`, `FractionalBits` are natural numbers.  Where the source
  passes a difference of two of them to a parameter `template <int N>`, `N` is the signed
  difference.  The shift counts derived from a template argument (`N - 1`, `-N`, `N / 2`,
  `N - diffl`) are computed exactly; every value that is shifted, added or multiplied wraps.
* A failed `VIGRA_STATIC_ASSERT` and a failed `vigra_precondition` are results
  `Except.error`; a finished construction is `Except.ok`.
* The enumerators of the class and the enumerator `diff` of `mul` are constant expressions:
  where the evaluation of one overflows, or `diff` selects an instantiation that shifts by
  a negative count, the program is ill-formed and the result is `Except.error`.
-/

namespace vigra

/-! ## 32-bit `int` arithmetic -/

/-- Reduction of an integer to the 32-bit two's complement range `[-2^31, 2^31)`. -/
def wrapInt32 (x : Int) : Int := (x + 2147483648) % 4294967296 - 2147483648

/-- The integer `x` is a value of the type `int`. -/
def fitsInt32 (x : Int) : Prop := -2147483648 ≤ x ∧ x < 2147483648

instance (x : Int) : Decidable (fitsInt32 x) := by
  unfold fitsInt32; infer_instance

/-- The C++ expression `a + b` on `int`. -/
def add32 (a b : Int) : Int := wrapInt32 (a + b)

/-- The C++ expression `a - b` on `int`. -/
def sub32 (a b : Int) : Int := wrapInt32 (a - b)

/-- The C++ expression `a * b` on `int`. -/
def mul32 (a b : Int) : Int := wrapInt32 (a * b)

/-- The C++ expression `-a` on `int`. -/
def neg32 (a : Int) : Int := wrapInt32 (-a)

/-- The C++ expression `abs(a)` on `int`. -/
def abs32 (a : Int) : Int := if a < 0 then neg32 a else a

/-- The C++ expression `v << k` on `int`: multiplication by `2^k`, wrapped. -/
def shl32 (v : Int) (k : Int) : Int := wrapInt32 (v * 2 ^ k.toNat)

/-- The C++ expression `v >> k` on `int`: the arithmetic right shift, rounding towards minus
infinity. -/
def shr32 (v : Int) (k : Int) : Int := v / 2 ^ k.toNat

/-- The C++ expression `a & b` on `int`. -/
def and32 (a b : Int) : Int := Int.land a b

/-! ## Errors -/

/-- The ways in which a construction or an operation can fail. -/
inductive FPError where
  /-- The static assertion `FixedPoint_overflow_error__More_than_31_bits_requested` -/
  | More_than_31_bits_requested
  /-- The static assertion
  `FixedPoint_assignment_error__Target_object_has_too_few_integer_bits` -/
  | Target_object_has_too_few_integer_bits
  /-- A violated `vigra_precondition`. -/
  | PreconditionViolation
  /-- An enumerator initialiser that is no constant expression: the instantiation is
  ill-formed. -/
  | Not_a_constant_expression
  deriving DecidableEq, Repr

deriving instance DecidableEq for Except

/-! ## `namespace detail` -/

/-- The function `detail::FPAssignWithRound<MustRound>::exec<N>(v)`. -/
def FPAssignWithRound (MustRound : Bool) (N : Int) (v : Int) : Int :=
  match MustRound with
  | false => shl32 v (-N)
  | true => shr32 (add32 v (shl32 1 (N - 1))) N

/-- The function `detail::FPMulImplementation<MustRound>::exec<N>(l, r)`. -/
def FPMulImplementation (MustRound : Bool) (N : Int) (l r : Int) : Int :=
  match MustRound with
  | false => shl32 (mul32 l r) (-N)
  | true =>
    let diffl := Int.tdiv N 2
    let diffr := N - diffl
    let maskl := sub32 (shl32 1 diffl) 1
    let maskr := sub32 (shl32 1 diffr) 1
    let shiftl := shr32 l diffl
    let shiftr := shr32 r diffr
    add32 (add32 (mul32 shiftl shiftr) (shr32 (mul32 (and32 l maskl) shiftr) diffl))
      (shr32 (mul32 (and32 r maskr) shiftl) diffr)

/-- No operation of `FPMulImplementation<true>::exec<N>(l, r)` overflows: the operands of the
two additions, of the three multiplications and of the enumerators `maskl`, `maskr` are
listed in exact integer arithmetic, and each result is required to be an `int`. -/
def FPMulNoOverflow (N : Int) (l r : Int) : Prop :=
  let diffl := Int.tdiv N 2
  let diffr := N - diffl
  let shiftl := l / 2 ^ diffl.toNat
  let shiftr := r / 2 ^ diffr.toNat
  let lowl := Int.land l (2 ^ diffl.toNat - 1)
  let lowr := Int.land r (2 ^ diffr.toNat - 1)
  fitsInt32 (2 ^ diffl.toNat) ∧ fitsInt32 (2 ^ diffr.toNat) ∧
  fitsInt32 (shiftl * shiftr) ∧ fitsInt32 (lowl * shiftr) ∧ fitsInt32 (lowr * shiftl) ∧
  fitsInt32 (shiftl * shiftr + lowl * shiftr / 2 ^ diffl.toNat) ∧
  fitsInt32
    (shiftl * shiftr + lowl * shiftr / 2 ^ diffl.toNat + lowr * shiftl / 2 ^ diffr.toNat)

instance (N l r : Int) : Decidable (FPMulNoOverflow N l r) := by
  unfold FPMulNoOverflow; infer_instance

/-! ## `class FixedPoint` -/

/-- The class `FixedPoint<IntBits, FractionalBits>`: the one data member `int value`. -/
structure FixedPoint (IntBits FractionalBits : Nat) where
  value : Int
  deriving DecidableEq, Repr

namespace FixedPoint

/-- The constructor `FixedPoint(int v)`. -/
def ofInt (IntBits FractionalBits : Nat) (v : Int) :
    Except FPError (FixedPoint IntBits FractionalBits) :=
  if ¬ (IntBits + FractionalBits < 32) then .error .More_than_31_bits_requested
  else if ¬ (abs32 v < shl32 1 IntBits) then .error .PreconditionViolation
  else .ok ⟨shl32 v FractionalBits⟩

/-- The constructor `FixedPoint(int v, FixedPointNoShift)`. -/
def ofRaw (IntBits FractionalBits : Nat) (v : Int) :
    Except FPError (FixedPoint IntBits FractionalBits) :=
  if ¬ (IntBits + FractionalBits < 32) then .error .More_than_31_bits_requested
  else .ok ⟨v⟩

/-- The constructor `FixedPoint(const FixedPoint<Int2, Frac2> &other)`. -/
def ofFixedPoint (IntBits FractionalBits : Nat) {Int2 Frac2 : Nat}
    (other : FixedPoint Int2 Frac2) : Except FPError (FixedPoint IntBits FractionalBits) :=
  if ¬ (IntBits ≥ Int2) then .error .Target_object_has_too_few_integer_bits
  else .ok ⟨FPAssignWithRound (decide (Frac2 > FractionalBits))
    ((Frac2 : Int) - FractionalBits) other.value⟩

/-- The assignment `FixedPoint & operator=(const FixedPoint<Int2, Frac2> &other)`: the new
state of `*this`. -/
def assign {IntBits FractionalBits Int2 Frac2 : Nat}
    (_self : FixedPoint IntBits FractionalBits) (other : FixedPoint Int2 Frac2) :
    Except FPError (FixedPoint IntBits FractionalBits) :=
  if ¬ (IntBits ≥ Int2) then .error .Target_object_has_too_few_integer_bits
  else .ok ⟨FPAssignWithRound (decide (Frac2 > FractionalBits))
    ((Frac2 : Int) - FractionalBits) other.value⟩

/-- The member `FixedPoint operator-() const`. -/
def operatorNeg {IntBits FractionalBits : Nat} (self : FixedPoint IntBits FractionalBits) :
    Except FPError (FixedPoint IntBits FractionalBits) :=
  ofRaw IntBits FractionalBits (neg32 self.value)

/-- The value of an `int` operation in a constant expression: a result `x` that is no `int`
is an overflow, and the expression is no constant expression. -/
def constantExpression (x : Int) : Except FPError Int :=
  if fitsInt32 x then .ok x else .error .Not_a_constant_expression

/-- The values of the enumerators `ONE`, `ONE_HALF`, `FRACTIONAL_MASK` and `INT_MASK` of the
`enum` of the class. -/
structure Enumerators where
  ONE : Int
  ONE_HALF : Int
  FRACTIONAL_MASK : Int
  INT_MASK : Int
  deriving DecidableEq, Repr

/-- The `enum` of `FixedPoint<IntBits, FractionalBits>`: `ONE = 1 << FractionalBits`,
`ONE_HALF = ONE >> 1`, `FRACTIONAL_MASK = ONE - 1` and `INT_MASK = !FRACTIONAL_MASK`, the
logical negation of the source, which is `1` for the operand `0` and `0` for every other
operand.  A shift count of 32 or more is no constant expression; at 31 fractional bits
`ONE` is `1 << 31`, the sign bit, and `ONE - 1` overflows: then the class is ill-formed and
no enumerator has a value. -/
def enumerators (_IntBits FractionalBits : Nat) : Except FPError Enumerators :=
  if ¬ (FractionalBits < 32) then .error .Not_a_constant_expression
  else
    let ONE := shl32 1 FractionalBits
    let ONE_HALF := shr32 ONE 1
    match constantExpression (ONE - 1) with
    | .error e => .error e
    | .ok FRACTIONAL_MASK =>
      .ok ⟨ONE, ONE_HALF, FRACTIONAL_MASK, if FRACTIONAL_MASK = 0 then 1 else 0⟩

/-- The enumerator `ONE = 1 << FractionalBits`. -/
def ONE (IntBits FractionalBits : Nat) : Except FPError Int :=
  (enumerators IntBits FractionalBits).map Enumerators.ONE

/-- The enumerator `ONE_HALF = ONE >> 1`. -/
def ONE_HALF (IntBits FractionalBits : Nat) : Except FPError Int :=
  (enumerators IntBits FractionalBits).map Enumerators.ONE_HALF

/-- The enumerator `FRACTIONAL_MASK = ONE - 1`. -/
def FRACTIONAL_MASK (IntBits FractionalBits : Nat) : Except FPError Int :=
  (enumerators IntBits FractionalBits).map Enumerators.FRACTIONAL_MASK

/-- The enumerator `INT_MASK = !FRACTIONAL_MASK`. -/
def INT_MASK (IntBits FractionalBits : Nat) : Except FPError Int :=
  (enumerators IntBits FractionalBits).map Enumerators.INT_MASK

/-- The assignment `FixedPoint & operator=(int rhs)`: the state of `*this` afterwards, and
the outcome.  The precondition is checked before `value` is written. -/
def assignInt {IntBits FractionalBits : Nat} (self : FixedPoint IntBits FractionalBits)
    (rhs : Int) : FixedPoint IntBits FractionalBits × Except FPError Unit :=
  if ¬ (abs32 rhs < shl32 1 IntBits) then (self, .error .PreconditionViolation)
  else (⟨shl32 rhs FractionalBits⟩, .ok ())

/-- The range invariant of the data model: `|raw| < 2^(IntBits + FractionalBits)`. -/
def inRange {IntBits FractionalBits : Nat} (x : FixedPoint IntBits FractionalBits) : Prop :=
  |x.value| < 2 ^ (IntBits + FractionalBits)

end FixedPoint

/-! ## `FixedPointTraits` and the free functions -/

/-- The enumerator `MaxIntBits` of `FixedPointTraits`. -/
def MaxIntBits (IntBits1 IntBits2 : Nat) : Nat :=
  if IntBits1 < IntBits2 then IntBits2 else IntBits1

/-- The enumerator `MaxFracBits` of `FixedPointTraits` and of the operators. -/
def MaxFracBits (FracBits1 FracBits2 : Nat) : Nat :=
  if FracBits1 < FracBits2 then FracBits2 else FracBits1

/-- The type `FixedPointTraits<FixedPoint<I1, F1>, FixedPoint<I2, F2> >::PlusType`. -/
abbrev PlusType (IntBits1 FracBits1 IntBits2 FracBits2 : Nat) : Type :=
  FixedPoint (MaxIntBits IntBits1 IntBits2 + 1) (MaxFracBits FracBits1 FracBits2)

/-- The type `FixedPointTraits<FixedPoint<I1, F1>, FixedPoint<I2, F2> >::MinusType`. -/
abbrev MinusType (IntBits1 FracBits1 IntBits2 FracBits2 : Nat) : Type :=
  FixedPoint (MaxIntBits IntBits1 IntBits2 + 1) (MaxFracBits FracBits1 FracBits2)

/-- The type `FixedPointTraits<FixedPoint<I1, F1>, FixedPoint<I2, F2> >::MultipliesType`. -/
abbrev MultipliesType (IntBits1 FracBits1 IntBits2 FracBits2 : Nat) : Type :=
  FixedPoint (IntBits1 + IntBits2) (FracBits1 + FracBits2)

/-- The function `operator+(FixedPoint<I1, F1> l, FixedPoint<I2, F2> r)`. -/
def operatorPlus {IntBits1 FracBits1 IntBits2 FracBits2 : Nat}
    (l : FixedPoint IntBits1 FracBits1) (r : FixedPoint IntBits2 FracBits2) :
    Except FPError (PlusType IntBits1 FracBits1 IntBits2 FracBits2) :=
  FixedPoint.ofRaw _ _
    (add32 (shl32 l.value ((MaxFracBits FracBits1 FracBits2 : Int) - FracBits1))
      (shl32 r.value ((MaxFracBits FracBits1 FracBits2 : Int) - FracBits2)))

/-- The function `operator-(FixedPoint<I1, F1> l, FixedPoint<I2, F2> r)`. -/
def operatorMinus {IntBits1 FracBits1 IntBits2 FracBits2 : Nat}
    (l : FixedPoint IntBits1 FracBits1) (r : FixedPoint IntBits2 FracBits2) :
    Except FPError (MinusType IntBits1 FracBits1 IntBits2 FracBits2) :=
  FixedPoint.ofRaw _ _
    (sub32 (shl32 l.value ((MaxFracBits FracBits1 FracBits2 : Int) - FracBits1))
      (shl32 r.value ((MaxFracBits FracBits1 FracBits2 : Int) - FracBits2)))

/-- The function `operator*(FixedPoint<I1, F1> l, FixedPoint<I2, F2> r)`. -/
def operatorTimes {IntBits1 FracBits1 IntBits2 FracBits2 : Nat}
    (l : FixedPoint IntBits1 FracBits1) (r : FixedPoint IntBits2 FracBits2) :
    Except FPError (MultipliesType IntBits1 FracBits1 IntBits2 FracBits2) :=
  FixedPoint.ofRaw _ _ (mul32 l.value r.value)

/-- The function `mul(l, r, result)`: the new state of `result`.  The enumerator `diff` is
`FracBits1 + FracBits1 - FracBits3`, as in the source, and has the unsigned type of the
template arguments.  For `FracBits1 + FracBits1 < FracBits3` it wraps to a positive value,
`diff > 0` selects `FPMulImplementation<true>::exec<N>` with the negative `N` that the
conversion to `int` gives, and the enumerators of that `exec` shift by a negative count:
the call is ill-formed.  Otherwise `diff` is the difference itself. -/
def mul {IntBits1 FracBits1 IntBits2 FracBits2 IntBits3 FracBits3 : Nat}
    (l : FixedPoint IntBits1 FracBits1) (r : FixedPoint IntBits2 FracBits2)
    (_result : FixedPoint IntBits3 FracBits3) : Except FPError (FixedPoint IntBits3 FracBits3) :=
  if ¬ (IntBits1 + IntBits2 ≤ IntBits3) then .error .Target_object_has_too_few_integer_bits
  else if FracBits1 + FracBits1 < FracBits3 then .error .Not_a_constant_expression
  else
    let diff : Int := (FracBits1 : Int) + FracBits1 - FracBits3
    .ok ⟨FPMulImplementation (decide (diff > 0)) diff l.value r.value⟩

/-- The function `abs(FixedPoint<IntBits, FracBits> v)`. -/
def abs {IntBits FracBits : Nat} (v : FixedPoint IntBits FracBits) :
    Except FPError (FixedPoint IntBits FracBits) :=
  FixedPoint.ofRaw IntBits FracBits (abs32 v.value)

/-- The function `floor(FixedPoint<IntBits, FracBits> v)`. -/
def floor {IntBits FracBits : Nat} (v : FixedPoint IntBits FracBits) : Int :=
  shr32 v.value FracBits

/-- The function `ceil(FixedPoint<IntBits, FracBits> v)`, which takes `FRACTIONAL_MASK` from
the `enum` of the class. -/
def ceil {IntBits FracBits : Nat} (v : FixedPoint IntBits FracBits) : Except FPError Int :=
  (FixedPoint.FRACTIONAL_MASK IntBits FracBits).map
    (fun FRACTIONAL_MASK => shr32 (add32 v.value FRACTIONAL_MASK) FracBits)

/-- The function `round(FixedPoint<IntBits, FracBits> v)`, which takes `ONE_HALF` from the
`enum` of the class. -/
def round {IntBits FracBits : Nat} (v : FixedPoint IntBits FracBits) : Except FPError Int :=
  (FixedPoint.ONE_HALF IntBits FracBits).map
    (fun ONE_HALF => shr32 (add32 v.value ONE_HALF) FracBits)

/-- The function `operator==(FixedPoint<I1, F1> l, FixedPoint<I2, F2> r)`. -/
def operatorEq {IntBits1 FracBits1 IntBits2 FracBits2 : Nat}
    (l : FixedPoint IntBits1 FracBits1) (r : FixedPoint IntBits2 FracBits2) : Bool :=
  decide (shl32 l.value ((MaxFracBits FracBits1 FracBits2 : Int) - FracBits1)
    = shl32 r.value ((MaxFracBits FracBits1 FracBits2 : Int) - FracBits2))

/-- The function `operator!=(FixedPoint<I1, F1> l, FixedPoint<I2, F2> r)`. -/
def operatorNe {IntBits1 FracBits1 IntBits2 FracBits2 : Nat}
    (l : FixedPoint IntBits1 FracBits1) (r : FixedPoint IntBits2 FracBits2) : Bool :=
  decide (shl32 l.value ((MaxFracBits FracBits1 FracBits2 : Int) - FracBits1)
    ≠ shl32 r.value ((MaxFracBits FracBits1 FracBits2 : Int) - FracBits2))

/-- The function `operator<(FixedPoint<I1, F1> l, FixedPoint<I2, F2> r)`. -/
def operatorLt {IntBits1 FracBits1 IntBits2 FracBits2 : Nat}
    (l : FixedPoint IntBits1 FracBits1) (r : FixedPoint IntBits2 FracBits2) : Bool :=
  decide (shl32 l.value ((MaxFracBits FracBits1 FracBits2 : Int) - FracBits1)
    < shl32 r.value ((MaxFracBits FracBits1 FracBits2 : Int) - FracBits2))

/-- The function `operator<=(FixedPoint<I1, F1> l, FixedPoint<I2, F2> r)`. -/
def operatorLe {IntBits1 FracBits1 IntBits2 FracBits2 : Nat}
    (l : FixedPoint IntBits1 FracBits1) (r : FixedPoint IntBits2 FracBits2) : Bool :=
  decide (shl32 l.value ((MaxFracBits FracBits1 FracBits2 : Int) - FracBits1)
    ≤ shl32 r.value ((MaxFracBits FracBits1 FracBits2 : Int) - FracBits2))

/-- The function `operator>(FixedPoint<I1, F1> l, FixedPoint<I2, F2> r)`. -/
def operatorGt {IntBits1 FracBits1 IntBits2 FracBits2 : Nat}
    (l : FixedPoint IntBits1 FracBits1) (r : FixedPoint IntBits2 FracBits2) : Bool :=
  decide (shl32 l.value ((MaxFracBits FracBits1 FracBits2 : Int) - FracBits1)
    > shl32 r.value ((MaxFracBits FracBits1 FracBits2 : Int) - FracBits2))

/-- The function `operator>=(FixedPoint<I1, F1> l, FixedPoint<I2, F2> r)`. -/
def operatorGe {IntBits1 FracBits1 IntBits2 FracBits2 : Nat}
    (l : FixedPoint IntBits1 FracBits1) (r : FixedPoint IntBits2 FracBits2) : Bool :=
  decide (shl32 l.value ((MaxFracBits FracBits1 FracBits2 : Int) - FracBits1)
    ≥ shl32 r.value ((MaxFracBits FracBits1 FracBits2 : Int) - FracBits2))

/-- The source types `T` of the five uses of `VIGRA_FIXED_POINT_FACTORY(T, INTBITS)`. -/
inductive FactoryType where
  | unsigned_char
  | signed_char
  | unsigned_short
  | signed_short
  | int
  deriving DecidableEq, Repr

/-- The argument `INTBITS` of `VIGRA_FIXED_POINT_FACTORY(T, INTBITS)`. -/
def FactoryType.INTBITS : FactoryType → Nat
  | .unsigned_char => 8
  | .signed_char => 7
  | .unsigned_short => 16
  | .signed_short => 15
  | .int => 31

/-- The integer `t` is a value of the C++ type `T`: 8-bit `char`, 16-bit `short`, 32-bit
`int`, the signed ones in two's complement. -/
def FactoryType.hasValue : FactoryType → Int → Prop
  | .unsigned_char, t => 0 ≤ t ∧ t ≤ 255
  | .signed_char, t => -128 ≤ t ∧ t ≤ 127
  | .unsigned_short, t => 0 ≤ t ∧ t ≤ 65535
  | .signed_short, t => -32768 ≤ t ∧ t ≤ 32767
  | .int, t => -2147483648 ≤ t ∧ t ≤ 2147483647

instance (T : FactoryType) (t : Int) : Decidable (T.hasValue t) := by
  cases T <;> unfold FactoryType.hasValue <;> infer_instance

/-- The function `fixedPoint(T t)` made by `VIGRA_FIXED_POINT_FACTORY(T, INTBITS)`. -/
def fixedPoint (T : FactoryType) (t : Int) : Except FPError (FixedPoint T.INTBITS 0) :=
  FixedPoint.ofRaw T.INTBITS 0 t

/-! ## Auxiliary facts on 32-bit arithmetic -/

theorem wrapInt32_of_fits {x : Int} (h : fitsInt32 x) : wrapInt32 x = x := by
  unfold wrapInt32
  unfold fitsInt32 at h
  omega

theorem fits_of_wrapInt32_eq {x : Int} (h : wrapInt32 x = x) : fitsInt32 x := by
  unfold wrapInt32 at h
  unfold fitsInt32
  omega

theorem wrapInt32_add_wrapInt32 (a b : Int) : wrapInt32 (a + wrapInt32 b) = wrapInt32 (a + b) := by
  unfold wrapInt32
  omega

theorem two_pow_le_int32 {n : Nat} (h : n ≤ 31) : (2 : Int) ^ n ≤ 2147483648 := by
  have h1 : (2 : Int) ^ n ≤ 2 ^ 31 := pow_le_pow_right₀ (by norm_num) h
  have h2 : (2 : Int) ^ 31 = 2147483648 := by norm_num
  omega

theorem two_pow_pos_int (n : Nat) : (0 : Int) < 2 ^ n := by positivity

theorem fits_of_abs_lt_two_pow {x : Int} {n : Nat} (hn : n ≤ 31) (h : |x| < 2 ^ n) :
    fitsInt32 x := by
  have h1 := two_pow_le_int32 hn
  rw [abs_lt] at h
  unfold fitsInt32
  omega

theorem abs_mul_two_pow_lt {v : Int} {a : Nat} (k : Nat) (h : |v| < 2 ^ a) :
    |v * 2 ^ k| < 2 ^ (a + k) := by
  rw [abs_mul, abs_pow, abs_two, pow_add]
  exact mul_lt_mul_of_pos_right h (two_pow_pos_int k)

theorem two_pow_mono_int {m n : Nat} (h : m ≤ n) : (2 : Int) ^ m ≤ 2 ^ n :=
  pow_le_pow_right₀ (by norm_num) h

/-- A left shift that stays below `2^31` in magnitude is exact. -/
theorem shl32_exact {v : Int} {a k : Nat} (h : |v| < 2 ^ a) (hk : a + k ≤ 31) :
    shl32 v (k : Int) = v * 2 ^ k := by
  unfold shl32
  rw [Int.toNat_ofNat]
  exact wrapInt32_of_fits (fits_of_abs_lt_two_pow hk (abs_mul_two_pow_lt k h))

theorem ofRaw_ok {IntBits FractionalBits : Nat} (h : IntBits + FractionalBits < 32) (v : Int) :
    FixedPoint.ofRaw IntBits FractionalBits v = .ok ⟨v⟩ := by
  unfold FixedPoint.ofRaw
  simp [h]

theorem ofRaw_eq_ok_iff {IntBits FractionalBits : Nat} (v : Int)
    (res : FixedPoint IntBits FractionalBits) :
    FixedPoint.ofRaw IntBits FractionalBits v = .ok res ↔
      IntBits + FractionalBits < 32 ∧ res.value = v := by
  unfold FixedPoint.ofRaw
  by_cases h : IntBits + FractionalBits < 32
  · simp only [h, not_true_eq_false, if_false, Except.ok.injEq, true_and]
    constructor
    · intro e; rw [← e]
    · intro e; cases res; simp_all
  · simp [h]

theorem MaxFracBits_ge_left (a b : Nat) : a ≤ MaxFracBits a b := by
  unfold MaxFracBits; split <;> omega

theorem MaxFracBits_ge_right (a b : Nat) : b ≤ MaxFracBits a b := by
  unfold MaxFracBits; split <;> omega

theorem MaxIntBits_ge_left (a b : Nat) : a ≤ MaxIntBits a b := by
  unfold MaxIntBits; split <;> omega

theorem MaxIntBits_ge_right (a b : Nat) : b ≤ MaxIntBits a b := by
  unfold MaxIntBits; split <;> omega

theorem MaxFracBits_self (a : Nat) : MaxFracBits a a = a := by
  unfold MaxFracBits; simp

/-- The shift of an operand to the common scale `MaxFracBits`, when the operand is in range
and the promoted configuration has fewer than 32 bits. -/
theorem shl32_to_common_scale {v : Int} {I F M : Nat} (h : |v| < 2 ^ (I + F)) (hF : F ≤ M)
    (hbits : I + M ≤ 31) : shl32 v ((M : Int) - F) = v * 2 ^ (M - F) := by
  have e : (M : Int) - F = ((M - F : Nat) : Int) := by omega
  rw [e]
  exact shl32_exact h (by omega)

theorem abs_common_scale_lt {v : Int} {I F M : Nat} (h : |v| < 2 ^ (I + F)) (hF : F ≤ M) :
    |v * 2 ^ (M - F)| < 2 ^ (I + M) := by
  have h1 := abs_mul_two_pow_lt (M - F) h
  have e : I + F + (M - F) = I + M := by omega
  rwa [e] at h1

theorem abs32_eq_abs {v : Int} (hv : fitsInt32 v) (hmin : v ≠ -2147483648) : abs32 v = |v| := by
  unfold abs32 neg32
  unfold fitsInt32 at hv
  split
  · rw [wrapInt32_of_fits (by unfold fitsInt32; omega), abs_of_neg (by omega)]
  · rw [abs_of_nonneg (by omega)]

theorem shl32_one {I : Nat} (hI : I ≤ 30) : shl32 1 (I : Int) = 2 ^ I := by
  have h := shl32_exact (v := 1) (a := 1) (k := I) (by norm_num) (by omega)
  rw [h, one_mul]

/-- The integer constructor on a representable argument, for at most 30 integer bits. -/
theorem ofInt_ok {I F : Nat} (hbits : I + F < 32) (hI : I ≤ 30) {v : Int} (hv : |v| < 2 ^ I) :
    FixedPoint.ofInt I F v = .ok ⟨v * 2 ^ F⟩ := by
  have hfit : fitsInt32 v := fits_of_abs_lt_two_pow (by omega) hv
  have hmin : v ≠ -2147483648 := by
    have h1 := two_pow_le_int32 (n := I) (by omega)
    rw [abs_lt] at hv
    omega
  unfold FixedPoint.ofInt
  rw [abs32_eq_abs hfit hmin, shl32_one hI, shl32_exact hv (by omega)]
  simp [hbits, hv]

/-- The integer constructor on an argument that is not representable. -/
theorem ofInt_error {I F : Nat} (hbits : I + F < 32) (hI : I ≤ 30) {v : Int} (hfit : fitsInt32 v)
    (hmin : v ≠ -2147483648) (hv : ¬ |v| < 2 ^ I) :
    FixedPoint.ofInt I F v = .error .PreconditionViolation := by
  unfold FixedPoint.ofInt
  rw [abs32_eq_abs hfit hmin, shl32_one hI]
  simp only [hbits, not_true_eq_false, if_false, hv, not_false_eq_true, if_true]

/-- A raw value shifted from the scale `F` to the scale `M` represents the same number. -/
theorem scaled_div_eq (v : Int) {F M : Nat} (h : F ≤ M) :
    ((v * 2 ^ (M - F) : Int) : ℚ) / 2 ^ M = (v : ℚ) / 2 ^ F := by
  have hp : (2 : ℚ) ^ M = 2 ^ F * 2 ^ (M - F) := by
    rw [← pow_add]
    congr 1
    omega
  rw [hp]
  push_cast
  field_simp
  ring

/-! ## Add and subtract -/

/-- The raw results of `operator+` and `operator-` in a promoted configuration of fewer than
32 bits, on operands in range. -/
theorem plus_minus_raw {J1 G1 J2 G2 : Nat} (p : FixedPoint J1 G1) (q : FixedPoint J2 G2)
    (hb : MaxIntBits J1 J2 + 1 + MaxFracBits G1 G2 < 32)
    (hp : |p.value| < 2 ^ (J1 + G1)) (hq : |q.value| < 2 ^ (J2 + G2)) :
    operatorPlus p q = .ok ⟨p.value * 2 ^ (MaxFracBits G1 G2 - G1)
        + q.value * 2 ^ (MaxFracBits G1 G2 - G2)⟩
    ∧ operatorMinus p q = .ok ⟨p.value * 2 ^ (MaxFracBits G1 G2 - G1)
        - q.value * 2 ^ (MaxFracBits G1 G2 - G2)⟩ := by
  have hJ1 := MaxIntBits_ge_left J1 J2
  have hJ2 := MaxIntBits_ge_right J1 J2
  have hG1 := MaxFracBits_ge_left G1 G2
  have hG2 := MaxFracBits_ge_right G1 G2
  have sp := shl32_to_common_scale hp hG1 (by omega)
  have sq := shl32_to_common_scale hq hG2 (by omega)
  have bp := abs_common_scale_lt hp hG1
  have bq := abs_common_scale_lt hq hG2
  have m1 : (2 : Int) ^ (J1 + MaxFracBits G1 G2) ≤ 2 ^ (MaxIntBits J1 J2 + MaxFracBits G1 G2) :=
    two_pow_mono_int (by omega)
  have m2 : (2 : Int) ^ (J2 + MaxFracBits G1 G2) ≤ 2 ^ (MaxIntBits J1 J2 + MaxFracBits G1 G2) :=
    two_pow_mono_int (by omega)
  have m3 : (2 : Int) ^ (MaxIntBits J1 J2 + MaxFracBits G1 G2) ≤ 1073741824 := by
    have h1 : (2 : Int) ^ (MaxIntBits J1 J2 + MaxFracBits G1 G2) ≤ 2 ^ 30 :=
      two_pow_mono_int (by omega)
    have h2 : (2 : Int) ^ 30 = 1073741824 := by norm_num
    omega
  rw [abs_lt] at bp bq
  constructor
  · unfold operatorPlus
    rw [sp, sq, ofRaw_ok hb]
    unfold add32
    rw [wrapInt32_of_fits]
    unfold fitsInt32
    omega
  · unfold operatorMinus
    rw [sp, sq, ofRaw_ok hb]
    unfold sub32
    rw [wrapInt32_of_fits]
    unfold fitsInt32
    omega


/-- C1: in a promoted configuration of fewer than 32 bits and on operands in range,
`operator+` and `operator-` return the value whose raw is the sum (difference) of the raws
shifted to the common scale `MaxFracBits`, which represents the sum (difference) of the two
represented numbers; for two values made by the integer constructor
of one configuration from `a` and `b` the raw is `(a + b) * 2^FracBits`
(`(a - b) * 2^FracBits`). -/
theorem operatorPlus_operatorMinus_exact {I1 F1 I2 F2 : Nat}
    (l : FixedPoint I1 F1) (r : FixedPoint I2 F2)
    (hbits : MaxIntBits I1 I2 + 1 + MaxFracBits F1 F2 < 32)
    (hl : |l.value| < 2 ^ (I1 + F1)) (hr : |r.value| < 2 ^ (I2 + F2)) :
    operatorPlus l r = .ok ⟨l.value * 2 ^ (MaxFracBits F1 F2 - F1)
        + r.value * 2 ^ (MaxFracBits F1 F2 - F2)⟩
    ∧ operatorMinus l r = .ok ⟨l.value * 2 ^ (MaxFracBits F1 F2 - F1)
        - r.value * 2 ^ (MaxFracBits F1 F2 - F2)⟩
    ∧ ((l.value * 2 ^ (MaxFracBits F1 F2 - F1) + r.value * 2 ^ (MaxFracBits F1 F2 - F2) : Int) : ℚ)
        / 2 ^ MaxFracBits F1 F2 = (l.value : ℚ) / 2 ^ F1 + (r.value : ℚ) / 2 ^ F2
    ∧ ((l.value * 2 ^ (MaxFracBits F1 F2 - F1) - r.value * 2 ^ (MaxFracBits F1 F2 - F2) : Int) : ℚ)
        / 2 ^ MaxFracBits F1 F2 = (l.value : ℚ) / 2 ^ F1 - (r.value : ℚ) / 2 ^ F2
    ∧ ∀ a b : Int, |a| < 2 ^ I1 → |b| < 2 ^ I1 →
        ∃ x y : FixedPoint I1 F1,
          FixedPoint.ofInt I1 F1 a = .ok x ∧ FixedPoint.ofInt I1 F1 b = .ok y ∧
          operatorPlus x y = .ok ⟨(a + b) * 2 ^ F1⟩ ∧
          operatorMinus x y = .ok ⟨(a - b) * 2 ^ F1⟩ := by
  have hI1 := MaxIntBits_ge_left I1 I2
  have hF1 := MaxFracBits_ge_left F1 F2
  have hF2 := MaxFracBits_ge_right F1 F2
  have q1 := scaled_div_eq l.value hF1
  have q2 := scaled_div_eq r.value hF2
  refine ⟨(plus_minus_raw l r hbits hl hr).1, (plus_minus_raw l r hbits hl hr).2, ?_, ?_, ?_⟩
  · rw [Int.cast_add, add_div, q1, q2]
  · rw [Int.cast_sub, sub_div, q1, q2]
  intro a b ha hb
  have hb1 : I1 + 1 + F1 < 32 := by omega
  have hself : MaxIntBits I1 I1 + 1 + MaxFracBits F1 F1 < 32 := by
    rw [MaxFracBits_self]
    have : MaxIntBits I1 I1 = I1 := by unfold MaxIntBits; simp
    omega
  have ra : |a * 2 ^ F1| < 2 ^ (I1 + F1) := abs_mul_two_pow_lt F1 ha
  have rb : |b * 2 ^ F1| < 2 ^ (I1 + F1) := abs_mul_two_pow_lt F1 hb
  refine ⟨⟨a * 2 ^ F1⟩, ⟨b * 2 ^ F1⟩, ofInt_ok (by omega) (by omega) ha,
    ofInt_ok (by omega) (by omega) hb, ?_, ?_⟩
  · rw [(plus_minus_raw (⟨a * 2 ^ F1⟩ : FixedPoint I1 F1) ⟨b * 2 ^ F1⟩ hself ra rb).1]
    simp only [MaxFracBits_self, Nat.sub_self, pow_zero, mul_one]
    congr 2
    ring
  · rw [(plus_minus_raw (⟨a * 2 ^ F1⟩ : FixedPoint I1 F1) ⟨b * 2 ^ F1⟩ hself ra rb).2]
    simp only [MaxFracBits_self, Nat.sub_self, pow_zero, mul_one]
    congr 2
    ring

/-- Witness of C1: `1.5` at `(2,1)` (raw 3) and `-1.25` at `(1,2)` (raw -5). -/
theorem operatorPlus_operatorMinus_exact_witness :
    (operatorPlus (⟨3⟩ : FixedPoint 2 1) (⟨-5⟩ : FixedPoint 1 2) = .ok ⟨1⟩
      ∧ operatorMinus (⟨3⟩ : FixedPoint 2 1) (⟨-5⟩ : FixedPoint 1 2) = .ok ⟨11⟩)
    ∧ (operatorPlus (⟨3⟩ : FixedPoint 2 1) (⟨-5⟩ : FixedPoint 1 2)
          = .ok ⟨3 * 2 ^ (MaxFracBits 1 2 - 1) + -5 * 2 ^ (MaxFracBits 1 2 - 2)⟩
      ∧ operatorMinus (⟨3⟩ : FixedPoint 2 1) (⟨-5⟩ : FixedPoint 1 2)
          = .ok ⟨3 * 2 ^ (MaxFracBits 1 2 - 1) - -5 * 2 ^ (MaxFracBits 1 2 - 2)⟩) :=
  have h := operatorPlus_operatorMinus_exact (⟨3⟩ : FixedPoint 2 1) (⟨-5⟩ : FixedPoint 1 2)
    (by decide) (by decide) (by decide)
  ⟨by decide, h.1, h.2.1⟩

/-! ## The range invariant under the operators -/

theorem abs_mul_lt_two_pow {x y : Int} {a b : Nat} (hx : |x| < 2 ^ a) (hy : |y| < 2 ^ b) :
    |x * y| < 2 ^ (a + b) := by
  rw [abs_mul, pow_add]
  have hb : (0 : Int) < 2 ^ b := two_pow_pos_int b
  calc |x| * |y| ≤ |x| * 2 ^ b := mul_le_mul_of_nonneg_left hy.le (abs_nonneg x)
    _ < 2 ^ a * 2 ^ b := mul_lt_mul_of_pos_right hx hb

/-- C2: on operands in range, every result of `operator+`, `operator-`, `operator*`, the
unary `operator-` and `abs` is in range for its result configuration; and each of them has
a result when that configuration has fewer than 32 bits. -/
theorem operators_preserve_inRange {I1 F1 I2 F2 : Nat}
    (l : FixedPoint I1 F1) (r : FixedPoint I2 F2) (hl : l.inRange) (hr : r.inRange) :
    ((∀ res, operatorPlus l r = .ok res → res.inRange)
      ∧ (MaxIntBits I1 I2 + 1 + MaxFracBits F1 F2 < 32 → ∃ res, operatorPlus l r = .ok res))
    ∧ ((∀ res, operatorMinus l r = .ok res → res.inRange)
      ∧ (MaxIntBits I1 I2 + 1 + MaxFracBits F1 F2 < 32 → ∃ res, operatorMinus l r = .ok res))
    ∧ ((∀ res, operatorTimes l r = .ok res → res.inRange)
      ∧ (I1 + I2 + (F1 + F2) < 32 → ∃ res, operatorTimes l r = .ok res))
    ∧ ((∀ res, l.operatorNeg = .ok res → res.inRange)
      ∧ (I1 + F1 < 32 → ∃ res, l.operatorNeg = .ok res))
    ∧ ((∀ res, abs l = .ok res → res.inRange)
      ∧ (I1 + F1 < 32 → ∃ res, abs l = .ok res)) := by
  unfold FixedPoint.inRange at hl hr
  have hF1 := MaxFracBits_ge_left F1 F2
  have hF2 := MaxFracBits_ge_right F1 F2
  have hI1 := MaxIntBits_ge_left I1 I2
  have hI2 := MaxIntBits_ge_right I1 I2
  have bl := abs_common_scale_lt hl hF1
  have br := abs_common_scale_lt hr hF2
  have m1 : (2 : Int) ^ (I1 + MaxFracBits F1 F2) ≤ 2 ^ (MaxIntBits I1 I2 + MaxFracBits F1 F2) :=
    two_pow_mono_int (by omega)
  have m2 : (2 : Int) ^ (I2 + MaxFracBits F1 F2) ≤ 2 ^ (MaxIntBits I1 I2 + MaxFracBits F1 F2) :=
    two_pow_mono_int (by omega)
  have m3 : (2 : Int) ^ (MaxIntBits I1 I2 + 1 + MaxFracBits F1 F2)
      = 2 * 2 ^ (MaxIntBits I1 I2 + MaxFracBits F1 F2) := by
    rw [show MaxIntBits I1 I2 + 1 + MaxFracBits F1 F2
      = (MaxIntBits I1 I2 + MaxFracBits F1 F2) + 1 by omega, pow_succ]
    ring
  refine ⟨⟨?_, fun hb => ⟨_, ofRaw_ok hb _⟩⟩, ⟨?_, fun hb => ⟨_, ofRaw_ok hb _⟩⟩,
    ⟨?_, fun hb => ⟨_, ofRaw_ok hb _⟩⟩, ⟨?_, fun hb => ⟨_, ofRaw_ok hb _⟩⟩,
    ⟨?_, fun hb => ⟨_, ofRaw_ok hb _⟩⟩⟩
  · intro res h
    obtain ⟨hb, hv⟩ := (ofRaw_eq_ok_iff _ res).1 h
    have e := (plus_minus_raw l r hb hl hr).1
    unfold operatorPlus at e
    rw [ofRaw_ok hb] at e
    injection e with e
    injection e with e
    unfold FixedPoint.inRange
    rw [hv, e, m3]
    rw [abs_lt] at bl br ⊢
    omega
  · intro res h
    obtain ⟨hb, hv⟩ := (ofRaw_eq_ok_iff _ res).1 h
    have e := (plus_minus_raw l r hb hl hr).2
    unfold operatorMinus at e
    rw [ofRaw_ok hb] at e
    injection e with e
    injection e with e
    unfold FixedPoint.inRange
    rw [hv, e, m3]
    rw [abs_lt] at bl br ⊢
    omega
  · intro res h
    obtain ⟨hb, hv⟩ := (ofRaw_eq_ok_iff _ res).1 h
    have hp : |l.value * r.value| < 2 ^ (I1 + F1 + (I2 + F2)) := abs_mul_lt_two_pow hl hr
    have e : I1 + F1 + (I2 + F2) = I1 + I2 + (F1 + F2) := by omega
    rw [e] at hp
    unfold FixedPoint.inRange
    rw [hv]
    unfold mul32
    rwa [wrapInt32_of_fits (fits_of_abs_lt_two_pow (by omega) hp)]
  · intro res h
    obtain ⟨hb, hv⟩ := (ofRaw_eq_ok_iff _ res).1 h
    have hn : |(-l.value)| < 2 ^ (I1 + F1) := by rwa [abs_neg]
    unfold FixedPoint.inRange
    rw [hv]
    unfold neg32
    rwa [wrapInt32_of_fits (fits_of_abs_lt_two_pow (by omega) hn)]
  · intro res h
    obtain ⟨hb, hv⟩ := (ofRaw_eq_ok_iff _ res).1 h
    have hfit : fitsInt32 l.value := fits_of_abs_lt_two_pow (by omega) hl
    have hmin : l.value ≠ -2147483648 := by
      have h1 := two_pow_le_int32 (n := I1 + F1) (by omega)
      rw [abs_lt] at hl
      omega
    unfold FixedPoint.inRange
    rw [hv, abs32_eq_abs hfit hmin, abs_abs]
    exact hl

/-- Witness of C2: `1.5` at `(2,1)` (raw 3) and `-1.25` at `(1,2)` (raw -5). -/
theorem operators_preserve_inRange_witness :
    (operatorPlus (⟨3⟩ : FixedPoint 2 1) (⟨-5⟩ : FixedPoint 1 2) = .ok ⟨1⟩
      ∧ operatorTimes (⟨3⟩ : FixedPoint 2 1) (⟨-5⟩ : FixedPoint 1 2) = .ok ⟨-15⟩
      ∧ abs (⟨-5⟩ : FixedPoint 1 2) = .ok ⟨5⟩)
    ∧ (∀ res, operatorTimes (⟨3⟩ : FixedPoint 2 1) (⟨-5⟩ : FixedPoint 1 2) = .ok res →
        res.inRange) :=
  ⟨by decide, (operators_preserve_inRange (⟨3⟩ : FixedPoint 2 1) (⟨-5⟩ : FixedPoint 1 2)
    (by unfold FixedPoint.inRange; decide) (by unfold FixedPoint.inRange; decide)).2.2.1.1⟩

/-! ## Multiply -/

/-- C3, as stated, fails: the product configuration of `(16,0)` and `(16,0)` has 32 bits and
is rejected although `65535 * 65535` would be the exact raw; and on the raw values `65536`
at `(1,0)`, which are outside their range, the product wraps to `0`. -/
theorem operatorTimes_counterexample :
    operatorTimes (⟨65535⟩ : FixedPoint 16 0) (⟨65535⟩ : FixedPoint 16 0)
        = .error .More_than_31_bits_requested
    ∧ (⟨65535⟩ : FixedPoint 16 0).inRange
    ∧ operatorTimes (⟨65536⟩ : FixedPoint 1 0) (⟨65536⟩ : FixedPoint 1 0) = .ok ⟨0⟩
    ∧ (65536 : Int) * 65536 ≠ 0 := by
  refine ⟨by decide, by unfold FixedPoint.inRange; decide, by decide, by decide⟩

/-- C3, amended: when the product configuration `(I1+I2, F1+F2)` has fewer than 32 bits,
`operator*` returns the value whose raw is `l.raw * r.raw` whenever that product is a
32-bit `int`, which is the case for all operands in range; and `raw / 2^(F1+F2)` is the
product of the two represented numbers. -/
theorem operatorTimes_exact {I1 F1 I2 F2 : Nat}
    (l : FixedPoint I1 F1) (r : FixedPoint I2 F2) (hbits : I1 + I2 + (F1 + F2) < 32) :
    (fitsInt32 (l.value * r.value) → operatorTimes l r = .ok ⟨l.value * r.value⟩)
    ∧ (l.inRange → r.inRange → operatorTimes l r = .ok ⟨l.value * r.value⟩)
    ∧ ((l.value * r.value : Int) : ℚ) / 2 ^ (F1 + F2)
        = (l.value : ℚ) / 2 ^ F1 * ((r.value : ℚ) / 2 ^ F2) := by
  have h1 : fitsInt32 (l.value * r.value) → operatorTimes l r = .ok ⟨l.value * r.value⟩ := by
    intro hfit
    unfold operatorTimes mul32
    rw [ofRaw_ok hbits, wrapInt32_of_fits hfit]
  refine ⟨h1, fun hl hr => h1 ?_, by rw [Int.cast_mul, pow_add, mul_div_mul_comm]⟩
  unfold FixedPoint.inRange at hl hr
  have hp : |l.value * r.value| < 2 ^ (I1 + F1 + (I2 + F2)) := abs_mul_lt_two_pow hl hr
  exact fits_of_abs_lt_two_pow (by omega) hp

/-- Witness of C3, amended: `1.5` at `(2,1)` times `-1.25` at `(1,2)` is raw `-15` at
`(3,3)`. -/
theorem operatorTimes_exact_witness :
    operatorTimes (⟨3⟩ : FixedPoint 2 1) (⟨-5⟩ : FixedPoint 1 2) = .ok ⟨3 * -5⟩ :=
  (operatorTimes_exact (⟨3⟩ : FixedPoint 2 1) (⟨-5⟩ : FixedPoint 1 2) (by decide)).1 (by decide)

/-- C4 fails on the code: `mul` takes `FracBits1 + FracBits1 - FracBits3` for `diff`.  At
`l` of `(1,1)` with raw 1 (0.5), `r` of `(1,0)` with raw 1 (1.0) and a result of `(2,2)`, so
that `F1 + F2 - F3 = -1`, the code has `diff = 0` and stores the raw `1` (0.25), where
`l.raw * r.raw * 2^(F3 - F1 - F2)` is `2` (0.5). -/
theorem mul_ignores_FracBits2 :
    mul (⟨1⟩ : FixedPoint 1 1) (⟨1⟩ : FixedPoint 1 0) (⟨0⟩ : FixedPoint 2 2) = .ok ⟨1⟩
    ∧ (1 : Int) * 1 * 2 ^ (2 - 1 - 0) = 2
    ∧ (⟨1⟩ : FixedPoint 1 1).inRange ∧ (⟨1⟩ : FixedPoint 1 0).inRange := by
  refine ⟨by decide, by decide, by unfold FixedPoint.inRange; decide,
    by unfold FixedPoint.inRange; decide⟩

/-- The function `mul` where the `diff` of the source is `0`: the exact product. -/
theorem mul_exact_of_diff_zero {I1 F1 I2 F2 I3 F3 : Nat} (l : FixedPoint I1 F1)
    (r : FixedPoint I2 F2) (result : FixedPoint I3 F3) (hI : I1 + I2 ≤ I3)
    (hF : F1 + F1 = F3) (hfit : fitsInt32 (l.value * r.value)) :
    mul l r result = .ok ⟨l.value * r.value⟩ := by
  have hd : decide ((F1 : Int) + F1 - F3 > 0) = false := by simp; omega
  have hlt : ¬ (F1 + F1 < F3) := by omega
  have e : (-((F1 : Int) + F1 - F3)).toNat = 0 := by omega
  unfold mul
  simp only [hI, not_true_eq_false, if_false, hlt, hd]
  show Except.ok (FixedPoint.mk (shl32 (mul32 l.value r.value) (-((F1 : Int) + F1 - F3)))) = _
  unfold mul32 shl32
  rw [wrapInt32_of_fits hfit, e, pow_zero, mul_one, wrapInt32_of_fits hfit]

/-- The function `mul` for `FracBits1 + FracBits1 < FracBits3` is ill-formed. -/
theorem mul_ill_formed {I1 F1 I2 F2 I3 F3 : Nat} (l : FixedPoint I1 F1)
    (r : FixedPoint I2 F2) (result : FixedPoint I3 F3) (hI : I1 + I2 ≤ I3)
    (hF : F1 + F1 < F3) : mul l r result = .error .Not_a_constant_expression := by
  unfold mul
  simp only [hI, not_true_eq_false, if_false, hF, if_true]

/-! ## The precision-preserving multiply -/

/-- The bits of `2^k - 1` that are not in `m`. -/
theorem ldiff_mask (m k : Nat) : Nat.ldiff (2 ^ k - 1) m = 2 ^ k - (m % 2 ^ k + 1) := by
  apply Nat.eq_of_testBit_eq
  intro i
  rw [Nat.testBit_ldiff, Nat.testBit_two_pow_sub_one,
    Nat.testBit_two_pow_sub_succ (Nat.mod_lt _ (Nat.two_pow_pos k)), Nat.testBit_mod_two_pow]
  cases decide (i < k) <;> cases m.testBit i <;> rfl

/-- Masking with `2^k - 1` is the remainder modulo `2^k`, for negative integers too. -/
theorem land_two_pow_sub_one (l : Int) (k : Nat) : Int.land l (2 ^ k - 1) = l % 2 ^ k := by
  have hk : (1 : Nat) ≤ 2 ^ k := Nat.one_le_two_pow
  have hm : ((2 : Int) ^ k - 1) = ((2 ^ k - 1 : Nat) : Int) := by
    push_cast [hk]
    rfl
  rw [hm]
  cases l with
  | ofNat m =>
    show ((Nat.land m (2 ^ k - 1) : Nat) : Int) = _
    have : Nat.land m (2 ^ k - 1) = m % 2 ^ k := Nat.and_pow_two_sub_one_eq_mod m k
    rw [this]
    push_cast
    rfl
  | negSucc m =>
    show ((Nat.ldiff (2 ^ k - 1) m : Nat) : Int) = _
    rw [ldiff_mask, Int.negSucc_emod m (by positivity)]
    have h1 : m % 2 ^ k < 2 ^ k := Nat.mod_lt _ (Nat.two_pow_pos k)
    push_cast [Nat.succ_le_of_lt h1]
    omega

/-- The sum of the three partial products is at most 2 below the shifted product. -/
theorem split_product_bound (A B l r : Int) (hA : 0 < A) (hB : 0 < B) :
    l / A * (r / B) + l % A * (r / B) / A + r % B * (l / A) / B ≤ l * r / (A * B)
    ∧ l * r / (A * B) ≤ l / A * (r / B) + l % A * (r / B) / A + r % B * (l / A) / B + 2 := by
  have e1 := Int.emod_add_ediv l A
  have e2 := Int.emod_add_ediv r B
  have e3 := Int.emod_add_ediv (l % A * (r / B)) A
  have e4 := Int.emod_add_ediv (r % B * (l / A)) B
  have n1 := Int.emod_nonneg l hA.ne'
  have n2 := Int.emod_nonneg r hB.ne'
  have n3 := Int.emod_nonneg (l % A * (r / B)) hA.ne'
  have n4 := Int.emod_nonneg (r % B * (l / A)) hB.ne'
  have u1 := Int.emod_lt_of_pos l hA
  have u2 := Int.emod_lt_of_pos r hB
  have u3 := Int.emod_lt_of_pos (l % A * (r / B)) hA
  have u4 := Int.emod_lt_of_pos (r % B * (l / A)) hB
  generalize l % A * (r / B) % A = rx at *
  generalize l % A * (r / B) / A = qx at *
  generalize r % B * (l / A) % B = ry at *
  generalize r % B * (l / A) / B = qy at *
  generalize l % A = ll at *
  generalize r % B = lr at *
  generalize l / A = hl at *
  generalize r / B = hr at *
  have hAB : 0 < A * B := mul_pos hA hB
  have key : l * r = (A * ry + B * rx + ll * lr) + (A * B) * (hl * hr + qx + qy) := by
    rw [← e1, ← e2]
    linear_combination (-B) * e3 + (-A) * e4
  have b0 : 0 ≤ A * ry + B * rx + ll * lr := by
    have := mul_nonneg hA.le n4
    have := mul_nonneg hB.le n3
    have := mul_nonneg n1 n2
    omega
  have b3 : A * ry + B * rx + ll * lr < 3 * (A * B) := by
    have h1 : A * ry < A * B := mul_lt_mul_of_pos_left u4 hA
    have h2 : B * rx < B * A := mul_lt_mul_of_pos_left u3 hB
    have h3 : ll * lr ≤ A * B := mul_le_mul u1.le u2.le n2 hA.le
    have h4 : B * A = A * B := mul_comm B A
    omega
  rw [key, Int.add_mul_ediv_left _ _ hAB.ne']
  have q0 : 0 ≤ (A * ry + B * rx + ll * lr) / (A * B) := Int.ediv_nonneg b0 hAB.le
  have q3 : (A * ry + B * rx + ll * lr) / (A * B) < 3 := Int.ediv_lt_of_lt_mul hAB b3
  constructor <;> omega

/-- The value of `FPMulImplementation<true>::exec<N>(l, r)` when no operation overflows. -/
theorem FPMulImplementation_true_eq (N : Nat) (l r : Int) (h : FPMulNoOverflow N l r) :
    FPMulImplementation true N l r
      = l / 2 ^ (N / 2) * (r / 2 ^ (N - N / 2))
        + l % 2 ^ (N / 2) * (r / 2 ^ (N - N / 2)) / 2 ^ (N / 2)
        + r % 2 ^ (N - N / 2) * (l / 2 ^ (N / 2)) / 2 ^ (N - N / 2) := by
  have hd : Int.tdiv (N : Int) 2 = ((N / 2 : Nat) : Int) := by
    rw [Int.tdiv_eq_ediv (by omega) (by norm_num)]
    omega
  have hr : (N : Int) - ((N / 2 : Nat) : Int) = ((N - N / 2 : Nat) : Int) := by omega
  unfold FPMulNoOverflow at h
  simp only [hd, hr, Int.toNat_ofNat, land_two_pow_sub_one] at h
  obtain ⟨f2, f3, f4, f5, f6, f7, f8⟩ := h
  unfold FPMulImplementation
  simp only [hd, hr]
  have k1 : shl32 1 ((N / 2 : Nat) : Int) = 2 ^ (N / 2) := by
    unfold shl32
    rw [Int.toNat_ofNat, one_mul, wrapInt32_of_fits f2]
  have k2 : shl32 1 ((N - N / 2 : Nat) : Int) = 2 ^ (N - N / 2) := by
    unfold shl32
    rw [Int.toNat_ofNat, one_mul, wrapInt32_of_fits f3]
  have p1 : (1 : Int) ≤ 2 ^ (N / 2) := by have := two_pow_pos_int (N / 2); omega
  have p2 : (1 : Int) ≤ 2 ^ (N - N / 2) := by have := two_pow_pos_int (N - N / 2); omega
  have w1 : sub32 ((2 : Int) ^ (N / 2)) 1 = 2 ^ (N / 2) - 1 := by
    unfold sub32
    unfold fitsInt32 at f2
    exact wrapInt32_of_fits (by unfold fitsInt32; omega)
  have w2 : sub32 ((2 : Int) ^ (N - N / 2)) 1 = 2 ^ (N - N / 2) - 1 := by
    unfold sub32
    unfold fitsInt32 at f3
    exact wrapInt32_of_fits (by unfold fitsInt32; omega)
  simp only [k1, k2, w1, w2]
  unfold shr32 and32 mul32 add32
  simp only [Int.toNat_ofNat, land_two_pow_sub_one]
  rw [wrapInt32_of_fits f4, wrapInt32_of_fits f5, wrapInt32_of_fits f6, wrapInt32_of_fits f7,
    wrapInt32_of_fits f8]

/-- C5: for `N ≥ 1`, when no operation of `FPMulImplementation<true>::exec<N>(l, r)`
overflows, its value `R` is `hl*hr + ((ll*hr) >> N/2) + ((lr*hl) >> (N - N/2))` and
`R ≤ floor(l*r / 2^N) ≤ R + 2`. -/
theorem FPMulImplementation_true_error_bound (N : Nat) (l r : Int) (hN : 1 ≤ N)
    (h : FPMulNoOverflow N l r) :
    FPMulImplementation true N l r
      = l / 2 ^ (N / 2) * (r / 2 ^ (N - N / 2))
        + l % 2 ^ (N / 2) * (r / 2 ^ (N - N / 2)) / 2 ^ (N / 2)
        + r % 2 ^ (N - N / 2) * (l / 2 ^ (N / 2)) / 2 ^ (N - N / 2)
    ∧ FPMulImplementation true N l r ≤ l * r / 2 ^ N
    ∧ l * r / 2 ^ N ≤ FPMulImplementation true N l r + 2 := by
  have e := FPMulImplementation_true_eq N l r h
  have hpow : (2 : Int) ^ N = 2 ^ (N / 2) * 2 ^ (N - N / 2) := by
    rw [← pow_add]
    congr 1
    omega
  have b := split_product_bound (2 ^ (N / 2)) (2 ^ (N - N / 2)) l r (two_pow_pos_int _)
    (two_pow_pos_int _)
  rw [← hpow, ← e] at b
  exact ⟨e, b.1, b.2⟩

/-- Witness of C5: `N = 4`, `l = 7`, `r = 7`: the value is `1` and `floor(49 / 16) = 3`, so
the bound `R + 2` is attained. -/
theorem FPMulImplementation_true_error_bound_witness :
    (FPMulImplementation true 4 7 7 = 1 ∧ (7 : Int) * 7 / 2 ^ 4 = 3)
    ∧ FPMulImplementation true ((4 : Nat) : Int) 7 7 ≤ 7 * 7 / 2 ^ 4
    ∧ 7 * 7 / 2 ^ 4 ≤ FPMulImplementation true ((4 : Nat) : Int) 7 7 + 2 :=
  ⟨by decide, (FPMulImplementation_true_error_bound 4 7 7 (by decide) (by decide)).2⟩

/-! ## The integer constructor -/

/-- C6 fails on the code at the configuration `(31,0)`, where `1 << IntBits` is `1 << 31`
and wraps to `-2^31`, so that the constructor rejects every argument, `0` included; and at
the argument `-2^31`, whose `abs` wraps to `-2^31`, so that the configuration `(4,4)` takes
it and stores the wrapped raw `0`. -/
theorem ofInt_range_check_overflows :
    FixedPoint.ofInt 31 0 0 = .error .PreconditionViolation
    ∧ shl32 1 31 = -2147483648
    ∧ FixedPoint.ofInt 4 4 (-2147483648) = .ok ⟨0⟩
    ∧ abs32 (-2147483648) = -2147483648 := by
  refine ⟨by decide, by decide, by decide, by decide⟩

/-- The round trip through the integer constructor and `floor`, for at most 30 integer
bits. -/
theorem floor_ofInt {I F : Nat} (hbits : I + F < 32) (hI : I ≤ 30) {v : Int} (hv : |v| < 2 ^ I) :
    (FixedPoint.ofInt I F v).map floor = .ok v := by
  rw [ofInt_ok hbits hI hv]
  show Except.ok (floor (⟨v * 2 ^ F⟩ : FixedPoint I F)) = Except.ok v
  unfold floor shr32
  rw [Int.toNat_ofNat, Int.mul_ediv_cancel _ (two_pow_pos_int F).ne']

/-- C7 fails on the code at the configuration `(31,0)`: the argument `5` has
`|5| < 2^31`, and the constructor raises, so that there is no value to take `floor` of. -/
theorem floor_ofInt_31_bits :
    (FixedPoint.ofInt 31 0 5).map floor = .error .PreconditionViolation
    ∧ |(5 : Int)| < 2 ^ 31 ∧ 31 + 0 < 32 := by
  refine ⟨by decide, by decide, by decide⟩

/-! ## Rounding conversion -/

/-- C8: for `N ≥ 1` and `v + 2^(N-1)` an `int`, `FPAssignWithRound<true>::exec<N>(v)` is
`floor((v + 2^(N-1)) / 2^N)`, and this `q` has `-2^(N-1) < q * 2^N - v ≤ 2^(N-1)`; at
`v = 3`, `N = 2` it is `1`. -/
theorem FPAssignWithRound_true_rounds (N : Nat) (v : Int) (hN : 1 ≤ N)
    (hsum : fitsInt32 (v + 2 ^ (N - 1))) :
    FPAssignWithRound true N v = (v + 2 ^ (N - 1)) / 2 ^ N
    ∧ -(2 ^ (N - 1)) < FPAssignWithRound true N v * 2 ^ N - v
    ∧ FPAssignWithRound true N v * 2 ^ N - v ≤ 2 ^ (N - 1)
    ∧ FPAssignWithRound true 2 3 = 1 := by
  have e : FPAssignWithRound true N v = (v + 2 ^ (N - 1)) / 2 ^ N := by
    show shr32 (add32 v (shl32 1 ((N : Int) - 1))) N = _
    have h1 : ((N : Int) - 1).toNat = N - 1 := by omega
    unfold shr32 add32 shl32
    rw [h1, one_mul, wrapInt32_add_wrapInt32, wrapInt32_of_fits hsum, Int.toNat_ofNat]
  have hP : (2 : Int) ^ N = 2 * 2 ^ (N - 1) := by
    rw [← pow_succ']
    congr 1
    omega
  have hpos := two_pow_pos_int (N - 1)
  have d := Int.emod_add_ediv (v + 2 ^ (N - 1)) (2 ^ N)
  have n := Int.emod_nonneg (v + 2 ^ (N - 1)) (two_pow_pos_int N).ne'
  have u := Int.emod_lt_of_pos (v + 2 ^ (N - 1)) (two_pow_pos_int N)
  rw [e, mul_comm ((v + 2 ^ (N - 1)) / 2 ^ N) (2 ^ N)]
  refine ⟨rfl, ?_, ?_, by decide⟩
  · linarith
  · linarith

/-- Witness of C8: `v = -5`, `N = 3` gives `floor((-5 + 4) / 8) = -1`. -/
theorem FPAssignWithRound_true_rounds_witness :
    FPAssignWithRound true ((3 : Nat) : Int) (-5) = (-5 + 2 ^ (3 - 1)) / 2 ^ 3
    ∧ FPAssignWithRound true 3 (-5) = -1 :=
  ⟨(FPAssignWithRound_true_rounds 3 (-5) (by decide) (by decide)).1, by decide⟩

/-- The widening branch of the conversion on a source in range. -/
theorem FPAssignWithRound_false_exact {I2 F2 I F : Nat} (hI : I ≥ I2) (hF : F ≥ F2)
    (hbits : I + F < 32) {v : Int} (hv : |v| < 2 ^ (I2 + F2)) :
    FPAssignWithRound (decide (F2 > F)) ((F2 : Int) - F) v = v * 2 ^ (F - F2) := by
  have hd : decide (F2 > F) = false := by simp; omega
  rw [hd]
  show shl32 v (-((F2 : Int) - F)) = _
  have e : -((F2 : Int) - F) = ((F - F2 : Nat) : Int) := by omega
  rw [e]
  exact shl32_exact hv (by omega)

/-- C9: for `I ≥ I2`, `F ≥ F2`, `I + F < 32` and a source in range, the cross-configuration
constructor and assignment give `raw * 2^(F - F2)`, which is a 32-bit `int` and represents
the same real value. -/
theorem widening_conversion_lossless {I2 F2 I F : Nat} (src : FixedPoint I2 F2)
    (self : FixedPoint I F) (hI : I ≥ I2) (hF : F ≥ F2) (hbits : I + F < 32)
    (hsrc : |src.value| < 2 ^ (I2 + F2)) :
    FixedPoint.ofFixedPoint I F src = .ok ⟨src.value * 2 ^ (F - F2)⟩
    ∧ FixedPoint.assign self src = .ok ⟨src.value * 2 ^ (F - F2)⟩
    ∧ fitsInt32 (src.value * 2 ^ (F - F2))
    ∧ ((src.value * 2 ^ (F - F2) : Int) : ℚ) / 2 ^ F = (src.value : ℚ) / 2 ^ F2 := by
  have e := FPAssignWithRound_false_exact hI hF hbits hsrc
  refine ⟨?_, ?_, ?_, ?_⟩
  · unfold FixedPoint.ofFixedPoint
    rw [e]
    simp [hI]
  · unfold FixedPoint.assign
    rw [e]
    simp [hI]
  · exact fits_of_abs_lt_two_pow (n := I2 + F2 + (F - F2)) (by omega)
      (abs_mul_two_pow_lt (F - F2) hsrc)
  · have hp : (2 : ℚ) ^ F = 2 ^ F2 * 2 ^ (F - F2) := by
      rw [← pow_add]
      congr 1
      omega
    rw [hp]
    push_cast
    field_simp
    ring

/-- Witness of C9: `-1.5` at `(2,1)` (raw -3) converted to `(3,4)` is raw `-24`. -/
theorem widening_conversion_lossless_witness :
    FixedPoint.ofFixedPoint 3 4 (⟨-3⟩ : FixedPoint 2 1) = .ok ⟨-3 * 2 ^ (4 - 1)⟩
    ∧ FixedPoint.ofFixedPoint 3 4 (⟨-3⟩ : FixedPoint 2 1) = .ok ⟨-24⟩ :=
  ⟨(widening_conversion_lossless (⟨-3⟩ : FixedPoint 2 1) (⟨0⟩ : FixedPoint 3 4) (by decide)
    (by decide) (by decide) (by decide)).1, by decide⟩

/-- C10 fails on the code in the narrowing case: `1.5` at `(1,1)` (raw 3, in range)
converted to `(1,0)` is `(3 + 1) >> 1 = 2`, which is not below `2^(1+0)`; the integer
constructor of `(1,0)` rejects that same value `2`. -/
theorem narrowing_conversion_leaves_range :
    FixedPoint.ofFixedPoint 1 0 (⟨3⟩ : FixedPoint 1 1) = .ok ⟨2⟩
    ∧ FixedPoint.assign (⟨0⟩ : FixedPoint 1 0) (⟨3⟩ : FixedPoint 1 1) = .ok ⟨2⟩
    ∧ (⟨3⟩ : FixedPoint 1 1).inRange
    ∧ ¬ (⟨2⟩ : FixedPoint 1 0).inRange
    ∧ FixedPoint.ofInt 1 0 2 = .error .PreconditionViolation := by
  refine ⟨by decide, by decide, by unfold FixedPoint.inRange; decide,
    by unfold FixedPoint.inRange; decide, by decide⟩

/-! ## Comparisons -/

/-- A shift to the common scale whose exact result is an `int`. -/
theorem shl32_common_of_fits {v : Int} {F M : Nat} (hF : F ≤ M)
    (h : fitsInt32 (v * 2 ^ (M - F))) : shl32 v ((M : Int) - F) = v * 2 ^ (M - F) := by
  have e : ((M : Int) - F).toNat = M - F := by omega
  unfold shl32
  rw [e, wrapInt32_of_fits h]

/-- The order of two raw values at one scale is the order of the represented numbers. -/
theorem scaled_compare (a b : Int) (M : Nat) :
    ((a = b) ↔ ((a : ℚ) / 2 ^ M = (b : ℚ) / 2 ^ M))
    ∧ ((a < b) ↔ ((a : ℚ) / 2 ^ M < (b : ℚ) / 2 ^ M))
    ∧ ((a ≤ b) ↔ ((a : ℚ) / 2 ^ M ≤ (b : ℚ) / 2 ^ M)) := by
  have hpos : (0 : ℚ) < 2 ^ M := by positivity
  refine ⟨?_, ?_, ?_⟩
  · rw [div_left_inj' hpos.ne', Int.cast_inj]
  · rw [div_lt_div_iff_of_pos_right hpos, Int.cast_lt]
  · rw [div_le_div_iff_of_pos_right hpos, Int.cast_le]

/-- C11: when the raw values shifted to the common scale `MaxFracBits` are 32-bit `int`s,
each of `==`, `!=`, `<`, `<=`, `>`, `>=` returns the truth value of that comparison between
the rationals `l.raw / 2^F1` and `r.raw / 2^F2`. -/
theorem comparisons_agree_with_rationals {I1 F1 I2 F2 : Nat}
    (l : FixedPoint I1 F1) (r : FixedPoint I2 F2)
    (hl : fitsInt32 (l.value * 2 ^ (MaxFracBits F1 F2 - F1)))
    (hr : fitsInt32 (r.value * 2 ^ (MaxFracBits F1 F2 - F2))) :
    operatorEq l r = decide ((l.value : ℚ) / 2 ^ F1 = (r.value : ℚ) / 2 ^ F2)
    ∧ operatorNe l r = decide ((l.value : ℚ) / 2 ^ F1 ≠ (r.value : ℚ) / 2 ^ F2)
    ∧ operatorLt l r = decide ((l.value : ℚ) / 2 ^ F1 < (r.value : ℚ) / 2 ^ F2)
    ∧ operatorLe l r = decide ((l.value : ℚ) / 2 ^ F1 ≤ (r.value : ℚ) / 2 ^ F2)
    ∧ operatorGt l r = decide ((l.value : ℚ) / 2 ^ F1 > (r.value : ℚ) / 2 ^ F2)
    ∧ operatorGe l r = decide ((l.value : ℚ) / 2 ^ F1 ≥ (r.value : ℚ) / 2 ^ F2) := by
  have hF1 := MaxFracBits_ge_left F1 F2
  have hF2 := MaxFracBits_ge_right F1 F2
  have eL := shl32_common_of_fits hF1 hl
  have eR := shl32_common_of_fits hF2 hr
  have qL := scaled_div_eq l.value hF1
  have qR := scaled_div_eq r.value hF2
  have c1 := scaled_compare (l.value * 2 ^ (MaxFracBits F1 F2 - F1))
    (r.value * 2 ^ (MaxFracBits F1 F2 - F2)) (MaxFracBits F1 F2)
  have c2 := scaled_compare (r.value * 2 ^ (MaxFracBits F1 F2 - F2))
    (l.value * 2 ^ (MaxFracBits F1 F2 - F1)) (MaxFracBits F1 F2)
  rw [qL, qR] at c1 c2
  unfold operatorEq operatorNe operatorLt operatorLe operatorGt operatorGe
  rw [eL, eR]
  refine ⟨?_, ?_, ?_, ?_, ?_, ?_⟩
  · exact decide_eq_decide.2 c1.1
  · exact decide_eq_decide.2 (not_congr c1.1)
  · exact decide_eq_decide.2 c1.2.1
  · exact decide_eq_decide.2 c1.2.2
  · exact decide_eq_decide.2 c2.2.1
  · exact decide_eq_decide.2 c2.2.2

/-- Witness of C11: `1.5` at `(8,4)`, raw 24, equals `1.5` at `(8,8)`, raw 384. -/
theorem comparisons_agree_with_rationals_witness :
    operatorEq (⟨24⟩ : FixedPoint 8 4) (⟨384⟩ : FixedPoint 8 8) = true
    ∧ operatorEq (⟨24⟩ : FixedPoint 8 4) (⟨384⟩ : FixedPoint 8 8)
        = decide (((24 : Int) : ℚ) / 2 ^ 4 = ((384 : Int) : ℚ) / 2 ^ 8) :=
  ⟨by decide, (comparisons_agree_with_rationals (⟨24⟩ : FixedPoint 8 4)
    (⟨384⟩ : FixedPoint 8 8) (by decide) (by decide)).1⟩

/-- C20: at `l = 32768` of `(16,0)` and `r = 0.5` of `(0,16)` (raw 32768), both in range and
both configurations below 32 bits, the shift of `l.raw` to the common scale 16 is `2^31`,
which is no `int`, and `l < r` is `true` although `32768 < 0.5` is false. -/
theorem comparison_overflows :
    ∃ (I1 F1 I2 F2 : Nat) (l : FixedPoint I1 F1) (r : FixedPoint I2 F2),
      I1 + F1 < 32 ∧ I2 + F2 < 32 ∧ l.inRange ∧ r.inRange
      ∧ ¬ fitsInt32 (l.value * 2 ^ (MaxFracBits F1 F2 - F1))
      ∧ operatorLt l r = true
      ∧ ¬ ((l.value : ℚ) / 2 ^ F1 < (r.value : ℚ) / 2 ^ F2) := by
  refine ⟨16, 0, 0, 16, ⟨32768⟩, ⟨32768⟩, by decide, by decide, ?_, ?_, by decide, by decide, ?_⟩
  · unfold FixedPoint.inRange; decide
  · unfold FixedPoint.inRange; decide
  · norm_num

/-! ## Factory functions -/

/-- Every factory call has a result, with the raw value `t`. -/
theorem fixedPoint_ok (T : FactoryType) (t : Int) : fixedPoint T t = .ok ⟨t⟩ := by
  cases T <;> exact ofRaw_ok (by decide) t

/-- A value of the source type is in range for the configuration of its factory, unless it
is the most negative value of a signed source type. -/
theorem fixedPoint_inRange_iff (T : FactoryType) (t : Int) (ht : T.hasValue t) :
    (⟨t⟩ : FixedPoint T.INTBITS 0).inRange ↔ t ≠ -(2 ^ T.INTBITS) := by
  unfold FixedPoint.inRange
  rw [abs_lt]
  cases T <;> simp only [FactoryType.hasValue, FactoryType.INTBITS] at ht ⊢ <;> norm_num <;> omega

/-- C12 fails on the code at the most negative value of each signed source type: the
factories return the raw values `-128` at `(7,0)`, `-32768` at `(15,0)` and `-2^31` at
`(31,0)`, none of which is in range; the integer constructor of `(7,0)` rejects `-128`. -/
theorem fixedPoint_signed_minimum :
    FactoryType.signed_char.hasValue (-128)
    ∧ fixedPoint .signed_char (-128) = .ok ⟨-128⟩
    ∧ ¬ (⟨-128⟩ : FixedPoint 7 0).inRange
    ∧ FixedPoint.ofInt 7 0 (-128) = .error .PreconditionViolation
    ∧ fixedPoint .signed_short (-32768) = .ok ⟨-32768⟩
    ∧ ¬ (⟨-32768⟩ : FixedPoint 15 0).inRange
    ∧ fixedPoint .int (-2147483648) = .ok ⟨-2147483648⟩
    ∧ ¬ (⟨-2147483648⟩ : FixedPoint 31 0).inRange := by
  refine ⟨by decide, by decide, ?_, by decide, by decide, ?_, by decide, ?_⟩ <;>
    (unfold FixedPoint.inRange; decide)

/-! ## The enumerators and the reductions `ceil` and `round` -/

/-- The `enum` of the class for at most 30 fractional bits. -/
theorem enumerators_ok (I : Nat) {F : Nat} (hF : F ≤ 30) :
    FixedPoint.enumerators I F
      = .ok ⟨2 ^ F, 2 ^ F / 2, 2 ^ F - 1, if (2 : Int) ^ F - 1 = 0 then 1 else 0⟩ := by
  have h1 : shl32 1 (F : Int) = 2 ^ F := shl32_one hF
  have hp := two_pow_pos_int F
  have hle : (2 : Int) ^ F ≤ 1073741824 := by
    have h2 : (2 : Int) ^ F ≤ 2 ^ 30 := two_pow_mono_int hF
    have h3 : (2 : Int) ^ 30 = 1073741824 := by norm_num
    omega
  have hfit : fitsInt32 ((2 : Int) ^ F - 1) := by unfold fitsInt32; omega
  have hlt : F < 32 := by omega
  unfold FixedPoint.enumerators FixedPoint.constantExpression
  simp only [hlt, not_true_eq_false, if_false, h1, hfit, if_true]
  rfl

/-- The `enum` of the class for 31 or more fractional bits: the class is ill-formed. -/
theorem enumerators_error (I : Nat) {F : Nat} (hF : 31 ≤ F) :
    FixedPoint.enumerators I F = .error .Not_a_constant_expression := by
  unfold FixedPoint.enumerators
  by_cases h : F < 32
  · have e : F = 31 := by omega
    subst e
    decide
  · simp only [h, not_false_eq_true, if_true]

/-- The enumerators `ONE`, `ONE_HALF` and `FRACTIONAL_MASK` for at most 30 fractional
bits. -/
theorem enumerators_eq (I : Nat) {F : Nat} (hF : F ≤ 30) :
    FixedPoint.ONE I F = .ok (2 ^ F)
    ∧ FixedPoint.ONE_HALF I F = .ok (2 ^ F / 2)
    ∧ FixedPoint.FRACTIONAL_MASK I F = .ok (2 ^ F - 1) := by
  unfold FixedPoint.ONE FixedPoint.ONE_HALF FixedPoint.FRACTIONAL_MASK
  rw [enumerators_ok I hF]
  exact ⟨rfl, rfl, rfl⟩

/-- An enumerator `FRACTIONAL_MASK` that has a value belongs to a class of at most 30
fractional bits, and is `2^FractionalBits - 1`. -/
theorem FRACTIONAL_MASK_eq_ok {I F : Nat} {m : Int} (h : FixedPoint.FRACTIONAL_MASK I F = .ok m) :
    F ≤ 30 ∧ m = 2 ^ F - 1 := by
  by_cases hF : F ≤ 30
  · rw [(enumerators_eq I hF).2.2] at h
    injection h with h
    exact ⟨hF, h.symm⟩
  · unfold FixedPoint.FRACTIONAL_MASK at h
    rw [enumerators_error I (by omega)] at h
    cases h

/-- The quotient of `x + (2^F - 1)` by `2^F` is the ceiling of `x / 2^F`. -/
theorem add_mask_div_eq_ceil (x : Int) (F : Nat) :
    (x + (2 ^ F - 1)) / 2 ^ F = ⌈(x : ℚ) / 2 ^ F⌉ := by
  have hp := two_pow_pos_int F
  have d := Int.emod_add_ediv (x + (2 ^ F - 1)) (2 ^ F)
  have n := Int.emod_nonneg (x + (2 ^ F - 1)) hp.ne'
  have u := Int.emod_lt_of_pos (x + (2 ^ F - 1)) hp
  generalize (x + (2 ^ F - 1)) / 2 ^ F = c at *
  have hq : (0 : ℚ) < 2 ^ F := by positivity
  symm
  rw [Int.ceil_eq_iff, lt_div_iff₀ hq, div_le_iff₀ hq]
  constructor
  · have : (c - 1) * 2 ^ F < x := by
      have e2 : (c - 1) * 2 ^ F = 2 ^ F * c - 2 ^ F := by ring
      omega
    exact_mod_cast this
  · have : x ≤ c * 2 ^ F := by
      have e2 : c * 2 ^ F = 2 ^ F * c := by ring
      omega
    exact_mod_cast this

/-- The quotient of `x + 2^F / 2` by `2^F` is the floor of `x / 2^F + 1/2`. -/
theorem add_half_div_eq_floor (x : Int) (F : Nat) :
    (x + 2 ^ F / 2) / 2 ^ F = ⌊(x : ℚ) / 2 ^ F + 1 / 2⌋ := by
  have hp := two_pow_pos_int F
  have d := Int.emod_add_ediv (x + 2 ^ F / 2) (2 ^ F)
  have n := Int.emod_nonneg (x + 2 ^ F / 2) hp.ne'
  have u := Int.emod_lt_of_pos (x + 2 ^ F / 2) hp
  generalize (x + 2 ^ F / 2) / 2 ^ F = c at *
  have hq : (0 : ℚ) < 2 ^ F := by positivity
  symm
  rw [Int.floor_eq_iff]
  rcases Nat.eq_zero_or_pos F with h0 | h0
  · subst h0
    simp only [pow_zero, Int.reduceDiv, add_zero, Int.emod_one, one_mul, zero_add] at d
    rw [d]
    norm_num
  · have hP : (2 : Int) ^ F = 2 * 2 ^ (F - 1) := by
      rw [← pow_succ']
      congr 1
      omega
    have hhalf : (2 : Int) ^ F / 2 = 2 ^ (F - 1) := by omega
    have hPq : (2 : ℚ) ^ F = 2 * 2 ^ (F - 1) := by exact_mod_cast hP
    have hh := two_pow_pos_int (F - 1)
    rw [hhalf] at d
    have key : (x : ℚ) / 2 ^ F + 1 / 2 = ((x + 2 ^ (F - 1) : Int) : ℚ) / 2 ^ F := by
      push_cast
      rw [hPq]
      field_simp
      ring
    rw [key, le_div_iff₀ hq, div_lt_iff₀ hq]
    constructor
    · have : c * 2 ^ F ≤ x + 2 ^ (F - 1) := by
        have e2 : c * 2 ^ F = 2 ^ F * c := by ring
        omega
      exact_mod_cast this
    · have : x + 2 ^ (F - 1) < (c + 1) * 2 ^ F := by
        have e2 : (c + 1) * 2 ^ F = 2 ^ F * c + 2 ^ F := by ring
        omega
      exact_mod_cast this

/-- The function `ceil` is the ceiling of the represented number when the addition of
`FRACTIONAL_MASK` does not overflow. -/
theorem ceil_eq_ceil {I F : Nat} (v : FixedPoint I F) (hF : F ≤ 30)
    (hsum : fitsInt32 (v.value + (2 ^ F - 1))) : ceil v = .ok ⌈(v.value : ℚ) / 2 ^ F⌉ := by
  unfold ceil
  rw [(enumerators_eq I hF).2.2]
  show Except.ok (shr32 (add32 v.value (2 ^ F - 1)) F) = _
  unfold add32 shr32
  rw [wrapInt32_of_fits hsum, Int.toNat_ofNat, add_mask_div_eq_ceil]

/-- The function `round` is `floor(x + 1/2)` of the represented number `x` when the addition
of `ONE_HALF` does not overflow. -/
theorem round_eq_floor {I F : Nat} (v : FixedPoint I F) (hF : F ≤ 30)
    (hsum : fitsInt32 (v.value + 2 ^ F / 2)) :
    round v = .ok ⌊(v.value : ℚ) / 2 ^ F + 1 / 2⌋ := by
  unfold round
  rw [(enumerators_eq I hF).2.1]
  show Except.ok (shr32 (add32 v.value (2 ^ F / 2)) F) = _
  unfold add32 shr32
  rw [wrapInt32_of_fits hsum, Int.toNat_ofNat, add_half_div_eq_floor]

/-- C13 fails on the code in a configuration of 31 bits: at `(30,1)` and raw `2^31 - 1`
(the number `1073741823.5`, in range), `raw + FRACTIONAL_MASK` is `2^31`, which wraps, and
`ceil` returns `-2^30`, where the ceiling is `2^30`. -/
theorem ceil_overflows :
    ceil (⟨2147483647⟩ : FixedPoint 30 1) = .ok (-1073741824)
    ∧ ⌈((2147483647 : Int) : ℚ) / 2 ^ 1⌉ = 1073741824
    ∧ (⟨2147483647⟩ : FixedPoint 30 1).inRange
    ∧ FixedPoint.FRACTIONAL_MASK 30 1 = .ok 1 := by
  refine ⟨by decide, ?_, by unfold FixedPoint.inRange; decide, by decide⟩
  rw [Int.ceil_eq_iff]
  norm_num

/-- C14 fails on the code in a configuration of 31 bits: at `(30,1)` and raw `2^31 - 1`
(the number `1073741823.5`, in range), `raw + ONE_HALF` is `2^31`, which wraps, and `round`
returns `-2^30`, where `floor(x + 1/2)` is `2^30`. -/
theorem round_overflows :
    round (⟨2147483647⟩ : FixedPoint 30 1) = .ok (-1073741824)
    ∧ ⌊((2147483647 : Int) : ℚ) / 2 ^ 1 + 1 / 2⌋ = 1073741824
    ∧ (⟨2147483647⟩ : FixedPoint 30 1).inRange
    ∧ FixedPoint.ONE_HALF 30 1 = .ok 1 := by
  refine ⟨by decide, ?_, by unfold FixedPoint.inRange; decide, by decide⟩
  rw [Int.floor_eq_iff]
  norm_num

/-- C15 fails on the code for `INT_MASK`, which the source defines with the logical `!`:
at 4 fractional bits `FRACTIONAL_MASK` is `15`, whose bitwise complement is `-16`, and
`INT_MASK` is `0`, so that for the raw value `24` the two masked parts add up to `8`; at
0 fractional bits `INT_MASK` is `1`, where the complement of the mask `0` is `-1`. -/
theorem INT_MASK_is_logical_not :
    FixedPoint.INT_MASK 4 4 = .ok 0
    ∧ FixedPoint.FRACTIONAL_MASK 4 4 = .ok 15
    ∧ (FixedPoint.FRACTIONAL_MASK 4 4).map Int.lnot = .ok (-16)
    ∧ (FixedPoint.enumerators 4 4).map
        (fun e => and32 24 e.INT_MASK + and32 24 e.FRACTIONAL_MASK) = .ok 8
    ∧ FixedPoint.INT_MASK 4 0 = .ok 1
    ∧ (FixedPoint.FRACTIONAL_MASK 4 0).map Int.lnot = .ok (-1) := by
  refine ⟨by decide, by decide, by decide, by decide, by decide, by decide⟩

/-! ## Construction paths and the static check -/

/-- C16 fails on the code for the cross-configuration constructor, which has no assertion
on `IntBits + FractionalBits`: from the raw value `16` of `(4,4)` it makes the raw value
`2^20` of the configuration `(20,20)`, which the integer and the raw constructor reject. -/
theorem ofFixedPoint_no_overflow_check :
    FixedPoint.ofFixedPoint 20 20 (⟨16⟩ : FixedPoint 4 4) = .ok ⟨1048576⟩
    ∧ ¬ (20 + 20 < 32)
    ∧ FixedPoint.ofInt 20 20 1 = .error .More_than_31_bits_requested
    ∧ FixedPoint.ofRaw 20 20 1048576 = .error .More_than_31_bits_requested := by
  refine ⟨by decide, by decide, by decide, by decide⟩

/-! ## Integer assignment -/

/-- The integer assignment accepts what the integer constructor accepts and stores what it
stores; a rejected assignment leaves the value as it was. -/
theorem assignInt_eq_ofInt {I F : Nat} (hbits : I + F < 32) (x : FixedPoint I F) (rhs : Int) :
    (FixedPoint.ofInt I F rhs = .error .PreconditionViolation
      ∧ x.assignInt rhs = (x, .error .PreconditionViolation))
    ∨ ∃ y, FixedPoint.ofInt I F rhs = .ok y ∧ x.assignInt rhs = (y, .ok ()) := by
  unfold FixedPoint.ofInt FixedPoint.assignInt
  by_cases h : abs32 rhs < shl32 1 I
  · right
    exact ⟨⟨shl32 rhs F⟩, by simp [hbits, h], by simp [h]⟩
  · left
    exact ⟨by simp [hbits, h], by simp [h]⟩

/-- C17 fails on the code where the integer constructor fails (C6): at `(31,0)` the bound
`1 << 31` wraps to `-2^31` and the assignment of `0` raises; and the right side `-2^31`,
whose `abs` wraps, is accepted by `(4,4)`, which stores the wrapped raw `0`. -/
theorem assignInt_range_check_overflows :
    FixedPoint.assignInt (⟨7⟩ : FixedPoint 31 0) 0 = (⟨7⟩, .error .PreconditionViolation)
    ∧ |(0 : Int)| < 2 ^ 31
    ∧ FixedPoint.assignInt (⟨7⟩ : FixedPoint 4 4) (-2147483648) = (⟨0⟩, .ok ())
    ∧ ¬ |(-2147483648 : Int)| < 2 ^ 4 := by
  refine ⟨by decide, by decide, by decide, by decide⟩

/-! ## Rounding conversion and negation -/

/-- The value of `FPAssignWithRound<true>::exec<N>(v)` when `v + 2^(N-1)` is an `int`. -/
theorem FPAssignWithRound_true_eq (N : Nat) (v : Int) (hsum : fitsInt32 (v + 2 ^ (N - 1))) :
    FPAssignWithRound true N v = (v + 2 ^ (N - 1)) / 2 ^ N := by
  show shr32 (add32 v (shl32 1 ((N : Int) - 1))) N = _
  have h1 : ((N : Int) - 1).toNat = N - 1 := by omega
  unfold shr32 add32 shl32
  rw [h1, one_mul, wrapInt32_add_wrapInt32, wrapInt32_of_fits hsum, Int.toNat_ofNat]

/-- A quotient from a decomposition `x = P * q + r` with `0 ≤ r < P`. -/
theorem ediv_eq_of_decomposition {x P q r : Int} (hP : 0 < P) (e : r + P * q = x) (h0 : 0 ≤ r)
    (h1 : r < P) : x / P = q :=
  ((Int.ediv_emod_unique hP).2 ⟨e, h0, h1⟩).1

/-- Adding the half `h` of `P = 2 * h` and dividing by `P`, at `v` and at `-v`. -/
theorem add_half_div_neg (v h : Int) (hh : 0 < h) :
    (-v + h) / (2 * h)
      = if v % (2 * h) = h then -((v + h) / (2 * h)) + 1 else -((v + h) / (2 * h)) := by
  have hP : (0 : Int) < 2 * h := by omega
  have d := Int.emod_add_ediv v (2 * h)
  have n := Int.emod_nonneg v hP.ne'
  have u := Int.emod_lt_of_pos v hP
  generalize v % (2 * h) = rv at *
  generalize v / (2 * h) = qv at *
  have m1 : 2 * h * (qv + 1) = 2 * h * qv + 2 * h := by ring
  have m2 : 2 * h * (-qv) = -(2 * h * qv) := by ring
  have m3 : 2 * h * (-qv - 1) = -(2 * h * qv) - 2 * h := by ring
  rcases lt_trichotomy rv h with c | c | c
  · have a1 : (v + h) / (2 * h) = qv :=
      ediv_eq_of_decomposition (r := rv + h) hP (by omega) (by omega) (by omega)
    have a2 : (-v + h) / (2 * h) = -qv :=
      ediv_eq_of_decomposition (r := h - rv) hP (by omega) (by omega) (by omega)
    rw [a1, a2, if_neg (by omega)]
  · have a1 : (v + h) / (2 * h) = qv + 1 :=
      ediv_eq_of_decomposition (r := 0) hP (by omega) (by omega) (by omega)
    have a2 : (-v + h) / (2 * h) = -qv :=
      ediv_eq_of_decomposition (r := 0) hP (by omega) (by omega) (by omega)
    rw [a1, a2, if_pos c]
    omega
  · have a1 : (v + h) / (2 * h) = qv + 1 :=
      ediv_eq_of_decomposition (r := rv + h - 2 * h) hP (by omega) (by omega) (by omega)
    have a2 : (-v + h) / (2 * h) = -qv - 1 :=
      ediv_eq_of_decomposition (r := 2 * h - rv + h) hP (by omega) (by omega) (by omega)
    rw [a1, a2, if_neg (by omega)]
    omega

/-- C18, as stated, fails: at `N = 1` the conversion of `1` is `(1 + 1) >> 1 = 1` and the
conversion of `-1` is `(-1 + 1) >> 1 = 0`, not `-1`. -/
theorem FPAssignWithRound_not_symmetric :
    FPAssignWithRound true 1 1 = 1 ∧ FPAssignWithRound true 1 (-1) = 0
    ∧ FPAssignWithRound true 1 (-1) ≠ -(FPAssignWithRound true 1 1) := by
  refine ⟨by decide, by decide, by decide⟩

/-- C18, amended: for `N ≥ 1`, when neither addition of `2^(N-1)` overflows, the conversion
of `-v` is the negation of the conversion of `v`, except at a tie, `v mod 2^N = 2^(N-1)`,
where it is the negation plus one: a tie is rounded up, for `v` and for `-v`. -/
theorem FPAssignWithRound_true_neg (N : Nat) (v : Int) (hN : 1 ≤ N)
    (hv : fitsInt32 (v + 2 ^ (N - 1))) (hneg : fitsInt32 (-v + 2 ^ (N - 1))) :
    FPAssignWithRound true N (-v)
      = if v % 2 ^ N = 2 ^ (N - 1) then -(FPAssignWithRound true N v) + 1
        else -(FPAssignWithRound true N v) := by
  have hP : (2 : Int) ^ N = 2 * 2 ^ (N - 1) := by
    rw [← pow_succ']
    congr 1
    omega
  rw [FPAssignWithRound_true_eq N v hv, FPAssignWithRound_true_eq N (-v) hneg, hP]
  exact add_half_div_neg v (2 ^ (N - 1)) (two_pow_pos_int (N - 1))

/-- Witness of C18, amended: `N = 2`: at the tie `v = 2` the conversions of `2` and `-2` are
`1` and `0`; at `v = 3` they are `1` and `-1`. -/
theorem FPAssignWithRound_true_neg_witness :
    (FPAssignWithRound true 2 2 = 1 ∧ FPAssignWithRound true 2 (-2) = 0
      ∧ FPAssignWithRound true 2 3 = 1 ∧ FPAssignWithRound true 2 (-3) = -1)
    ∧ FPAssignWithRound true ((2 : Nat) : Int) (-2)
      = if (2 : Int) % 2 ^ 2 = 2 ^ (2 - 1) then -(FPAssignWithRound true ((2 : Nat) : Int) 2) + 1
        else -(FPAssignWithRound true ((2 : Nat) : Int) 2) :=
  ⟨by decide, FPAssignWithRound_true_neg 2 2 (by decide) (by decide) (by decide)⟩

/-! ## Overflow in the precision-preserving multiply -/

/-- C19 fails on the code: with `l` of `(29,2)`, raw `2^31 - 1`, `r` of `(0,2)`, raw `3`
(0.75), and a result of `(29,1)`, all in range, `diff` is `3` (for `F1 + F2 - F3` and for
the `F1 + F1 - F3` of the source), `hl = l >> 1` is `2^30 - 1`, `lr = r & 3` is `3`, and
the product `lr * hl = 3221225469` is no `int`; it wraps, and `mul` stores the negative raw
`-268435457`, where `l.raw * r.raw >> 3` is `805306367`. -/
theorem FPMulImplementation_true_overflows :
    (29 + 2 < 32 ∧ 0 + 2 < 32 ∧ 29 + 1 < 32 ∧ 29 + 0 ≤ 29 ∧ (2 : Int) + 2 - 1 = 3)
    ∧ (⟨2147483647⟩ : FixedPoint 29 2).inRange ∧ (⟨3⟩ : FixedPoint 0 2).inRange
    ∧ shr32 2147483647 1 = 1073741823 ∧ and32 3 3 = 3
    ∧ ¬ fitsInt32 (and32 3 3 * shr32 2147483647 1)
    ∧ ¬ FPMulNoOverflow 3 2147483647 3
    ∧ FPMulImplementation true 3 2147483647 3 = -268435457
    ∧ mul (⟨2147483647⟩ : FixedPoint 29 2) (⟨3⟩ : FixedPoint 0 2) (⟨0⟩ : FixedPoint 29 1)
        = .ok ⟨-268435457⟩
    ∧ (2147483647 : Int) * 3 / 2 ^ 3 = 805306367 := by
  refine ⟨by decide, ?_, ?_, by decide, by decide, by decide, by decide, by decide, by decide,
    by decide⟩ <;> (unfold FixedPoint.inRange; decide)

/-! ## Widening and narrowing back -/

/-- The wrapped sum of two wrapped values is the wrapped sum of the values. -/
theorem wrapInt32_add_both (a b : Int) :
    wrapInt32 (wrapInt32 a + wrapInt32 b) = wrapInt32 (a + b) := by
  unfold wrapInt32
  omega

/-- C21: for `k ≥ 1` and `v * 2^k + 2^(k-1)` an `int`, narrowing by `k` the value widened
by `k` gives `v` back; hence the conversion of a value of `(I,F)` to `(I,F+k)` and back,
by the constructor or by the assignment, returns the original value. -/
theorem widen_then_narrow_identity (k : Nat) (v : Int) (hk : 1 ≤ k)
    (h : fitsInt32 (v * 2 ^ k + 2 ^ (k - 1))) :
    FPAssignWithRound true k (FPAssignWithRound false (-(k : Int)) v) = v
    ∧ ∀ (I F : Nat) (x : FixedPoint I F), x.value = v →
        (∃ y : FixedPoint I (F + k), FixedPoint.ofFixedPoint I (F + k) x = .ok y
          ∧ FixedPoint.ofFixedPoint I F y = .ok x)
        ∧ (∀ (y0 : FixedPoint I (F + k)) (x0 : FixedPoint I F),
          ∃ y : FixedPoint I (F + k), y0.assign x = .ok y ∧ x0.assign y = .ok x) := by
  have hP : (2 : Int) ^ k = 2 * 2 ^ (k - 1) := by
    rw [← pow_succ']
    congr 1
    omega
  have hh := two_pow_pos_int (k - 1)
  have key : FPAssignWithRound true k (FPAssignWithRound false (-(k : Int)) v) = v := by
    show shr32 (add32 (shl32 v (-(-(k : Int)))) (shl32 1 ((k : Int) - 1))) k = v
    have h1 : ((k : Int) - 1).toNat = k - 1 := by omega
    have h2 : (-(-(k : Int))).toNat = k := by omega
    unfold shr32 add32 shl32
    rw [h1, h2, one_mul, wrapInt32_add_both, wrapInt32_of_fits h, Int.toNat_ofNat]
    exact ediv_eq_of_decomposition (r := 2 ^ (k - 1)) (two_pow_pos_int k)
      (by rw [mul_comm]; omega) hh.le (by omega)
  refine ⟨key, ?_⟩
  intro I F x hx
  have d1 : decide (F > F + k) = false := by simp
  have d2 : decide (F + k > F) = true := by simp; omega
  have n1 : ((F : Int) - ((F + k : Nat) : Int)) = -(k : Int) := by push_cast; omega
  have n2 : (((F + k : Nat) : Int) - (F : Int)) = (k : Int) := by push_cast; omega
  have back : (⟨FPAssignWithRound true k (FPAssignWithRound false (-(k : Int)) x.value)⟩ :
      FixedPoint I F) = x := by
    rw [hx, key, ← hx]
  constructor
  · refine ⟨⟨FPAssignWithRound false (-(k : Int)) x.value⟩, ?_, ?_⟩
    · unfold FixedPoint.ofFixedPoint
      simp only [ge_iff_le, le_refl, not_true_eq_false, if_false, d1, n1]
    · unfold FixedPoint.ofFixedPoint
      simp only [ge_iff_le, le_refl, not_true_eq_false, if_false, d2, n2, back]
  · intro y0 x0
    refine ⟨⟨FPAssignWithRound false (-(k : Int)) x.value⟩, ?_, ?_⟩
    · unfold FixedPoint.assign
      simp only [ge_iff_le, le_refl, not_true_eq_false, if_false, d1, n1]
    · unfold FixedPoint.assign
      simp only [ge_iff_le, le_refl, not_true_eq_false, if_false, d2, n2, back]

/-- Witness of C21: `k = 3`, `v = -5`: widened `-40`, narrowed back `-5`. -/
theorem widen_then_narrow_identity_witness :
    (FPAssignWithRound false (-3) (-5) = -40 ∧ FPAssignWithRound true 3 (-40) = -5)
    ∧ FPAssignWithRound true ((3 : Nat) : Int)
        (FPAssignWithRound false (-((3 : Nat) : Int)) (-5)) = -5 :=
  ⟨by decide, (widen_then_narrow_identity 3 (-5) (by decide) (by decide)).1⟩

/-! ## The three reductions together -/

/-- C22: in every configuration whose `enum` has values, `mask` being the value of
`FRACTIONAL_MASK`, for a raw `int` for which `raw + FRACTIONAL_MASK` does not overflow, `round` and `ceil` return, `floor ≤ round ≤ ceil`,
`ceil - floor` is 0 or 1, and `ceil = floor` exactly when `raw & FRACTIONAL_MASK = 0`, in
which case all three are `raw / 2^FracBits`, without remainder. -/
theorem reductions_ordered {I F : Nat} (v : FixedPoint I F) (mask : Int)
    (hmask : FixedPoint.FRACTIONAL_MASK I F = .ok mask)
    (hv : fitsInt32 v.value) (hsum : fitsInt32 (v.value + mask)) :
    ∃ r c : Int, round v = .ok r ∧ ceil v = .ok c
      ∧ floor v ≤ r ∧ r ≤ c
      ∧ (c - floor v = 0 ∨ c - floor v = 1)
      ∧ (c = floor v ↔ and32 v.value mask = 0)
      ∧ (and32 v.value mask = 0 →
          floor v = v.value / 2 ^ F ∧ r = v.value / 2 ^ F ∧ c = v.value / 2 ^ F
          ∧ v.value = v.value / 2 ^ F * 2 ^ F) := by
  obtain ⟨hF, em⟩ := FRACTIONAL_MASK_eq_ok hmask
  subst em
  obtain ⟨_, eh, _⟩ := enumerators_eq I hF
  have hp := two_pow_pos_int F
  unfold fitsInt32 at hv hsum
  have hsum2 : fitsInt32 (v.value + 2 ^ F / 2) := by
    unfold fitsInt32
    omega
  have ef : floor v = v.value / 2 ^ F := by
    unfold floor shr32
    rw [Int.toNat_ofNat]
  have er : round v = .ok ((v.value + 2 ^ F / 2) / 2 ^ F) := by
    unfold round
    rw [eh]
    show Except.ok (shr32 (add32 v.value (2 ^ F / 2)) F) = _
    unfold add32 shr32
    rw [wrapInt32_of_fits hsum2, Int.toNat_ofNat]
  have ec : ceil v = .ok ((v.value + (2 ^ F - 1)) / 2 ^ F) := by
    unfold ceil
    rw [hmask]
    show Except.ok (shr32 (add32 v.value (2 ^ F - 1)) F) = _
    unfold add32 shr32
    rw [wrapInt32_of_fits (by unfold fitsInt32; omega), Int.toNat_ofNat]
  have ea : and32 v.value (2 ^ F - 1) = v.value % 2 ^ F := by
    unfold and32
    rw [land_two_pow_sub_one]
  refine ⟨_, _, er, ec, ?_⟩
  have d := Int.emod_add_ediv v.value (2 ^ F)
  have n := Int.emod_nonneg v.value hp.ne'
  have u := Int.emod_lt_of_pos v.value hp
  rw [ef, ea]
  clear er ec ef ea eh hmask
  generalize v.value % 2 ^ F = m at *
  generalize v.value / 2 ^ F = q at *
  generalize v.value = x at *
  generalize (2 : Int) ^ F = P at *
  have m1 : P * (q + 1) = P * q + P := by ring
  have eround : (x + P / 2) / P = q ∨ ((x + P / 2) / P = q + 1 ∧ m ≠ 0) := by
    by_cases c : m + P / 2 < P
    · left
      exact ediv_eq_of_decomposition (r := m + P / 2) hp (by omega) (by omega) c
    · right
      refine ⟨ediv_eq_of_decomposition (r := m + P / 2 - P) hp (by omega) (by omega)
        (by omega), by omega⟩
  by_cases c0 : m = 0
  · have eceil : (x + (P - 1)) / P = q :=
      ediv_eq_of_decomposition (r := P - 1) hp (by omega) (by omega) (by omega)
    have e2 : q * P = P * q := mul_comm q P
    rcases eround with e | ⟨_, e⟩
    · rw [e, eceil]
      refine ⟨le_refl _, le_refl _, Or.inl (by omega), by simp [c0], fun _ => ⟨rfl, rfl, rfl, ?_⟩⟩
      omega
    · exact absurd c0 e
  · have eceil : (x + (P - 1)) / P = q + 1 :=
      ediv_eq_of_decomposition (r := m - 1) hp (by omega) (by omega) (by omega)
    rw [eceil]
    refine ⟨?_, ?_, Or.inr (by omega), ?_, fun h => absurd h c0⟩
    · rcases eround with e | ⟨e, _⟩ <;> omega
    · rcases eround with e | ⟨e, _⟩ <;> omega
    · constructor
      · intro h
        omega
      · intro h
        exact absurd h c0

/-- Witness of C22: `(3,2)`: at raw `-5` (the number `-1.25`) `floor`, `round`, `ceil` are
`-2`, `-1`, `-1`; at raw `-8` (the number `-2`) all three are `-2`. -/
theorem reductions_ordered_witness :
    (FixedPoint.FRACTIONAL_MASK 3 2 = .ok 3
      ∧ floor (⟨-5⟩ : FixedPoint 3 2) = -2 ∧ round (⟨-5⟩ : FixedPoint 3 2) = .ok (-1)
      ∧ ceil (⟨-5⟩ : FixedPoint 3 2) = .ok (-1)
      ∧ floor (⟨-8⟩ : FixedPoint 3 2) = -2 ∧ round (⟨-8⟩ : FixedPoint 3 2) = .ok (-2)
      ∧ ceil (⟨-8⟩ : FixedPoint 3 2) = .ok (-2))
    ∧ ∃ r c : Int, round (⟨-5⟩ : FixedPoint 3 2) = .ok r ∧ ceil (⟨-5⟩ : FixedPoint 3 2) = .ok c
      ∧ floor (⟨-5⟩ : FixedPoint 3 2) ≤ r ∧ r ≤ c
      ∧ (c - floor (⟨-5⟩ : FixedPoint 3 2) = 0 ∨ c - floor (⟨-5⟩ : FixedPoint 3 2) = 1)
      ∧ (c = floor (⟨-5⟩ : FixedPoint 3 2) ↔ and32 (-5) 3 = 0)
      ∧ (and32 (-5) 3 = 0 →
          floor (⟨-5⟩ : FixedPoint 3 2) = -5 / 2 ^ 2 ∧ r = -5 / 2 ^ 2 ∧ c = -5 / 2 ^ 2
          ∧ (-5 : Int) = -5 / 2 ^ 2 * 2 ^ 2) :=
  ⟨by decide, reductions_ordered (⟨-5⟩ : FixedPoint 3 2) 3 (by decide) (by decide) (by decide)⟩

/-- The configurations whose `enum` has no values are those of 31 or more fractional bits;
for them `round` and `ceil` cannot be called. -/
theorem reductions_ill_formed {I F : Nat} (v : FixedPoint I F) (hF : 31 ≤ F) :
    FixedPoint.FRACTIONAL_MASK I F = .error .Not_a_constant_expression
    ∧ round v = .error .Not_a_constant_expression
    ∧ ceil v = .error .Not_a_constant_expression := by
  unfold round ceil FixedPoint.FRACTIONAL_MASK FixedPoint.ONE_HALF
  rw [enumerators_error I hF]
  exact ⟨rfl, rfl, rfl⟩

/-! ## Monotonicity of the rounding conversion -/

/-- C23: for `v ≤ w` the conversion of `v` is at most the conversion of `w`: for a positive
shift `N = k` when the additions of `2^(k-1)` do not overflow, and for a shift `N = -k` that
is zero or negative when the left shifts do not overflow; hence the cross-configuration
constructor keeps the order of two values of one configuration. -/
theorem FPAssignWithRound_monotone (k : Nat) (v w : Int) (hvw : v ≤ w) :
    (1 ≤ k → fitsInt32 (v + 2 ^ (k - 1)) → fitsInt32 (w + 2 ^ (k - 1)) →
      FPAssignWithRound true k v ≤ FPAssignWithRound true k w)
    ∧ (fitsInt32 (v * 2 ^ k) → fitsInt32 (w * 2 ^ k) →
      FPAssignWithRound false (-(k : Int)) v ≤ FPAssignWithRound false (-(k : Int)) w)
    ∧ ∀ (I2 F2 I F : Nat) (x y : FixedPoint I2 F2), x.value = v → y.value = w → I ≥ I2 →
        (F2 = F + k → 1 ≤ k → fitsInt32 (v + 2 ^ (k - 1)) → fitsInt32 (w + 2 ^ (k - 1)) →
          ∃ x1 y1 : FixedPoint I F, FixedPoint.ofFixedPoint I F x = .ok x1
            ∧ FixedPoint.ofFixedPoint I F y = .ok y1 ∧ x1.value ≤ y1.value)
        ∧ (F = F2 + k → fitsInt32 (v * 2 ^ k) → fitsInt32 (w * 2 ^ k) →
          ∃ x1 y1 : FixedPoint I F, FixedPoint.ofFixedPoint I F x = .ok x1
            ∧ FixedPoint.ofFixedPoint I F y = .ok y1 ∧ x1.value ≤ y1.value) := by
  have hp := two_pow_pos_int k
  have narrow : 1 ≤ k → fitsInt32 (v + 2 ^ (k - 1)) → fitsInt32 (w + 2 ^ (k - 1)) →
      FPAssignWithRound true k v ≤ FPAssignWithRound true k w := by
    intro _ h1 h2
    rw [FPAssignWithRound_true_eq k v h1, FPAssignWithRound_true_eq k w h2]
    exact Int.ediv_le_ediv hp (by omega)
  have widen : fitsInt32 (v * 2 ^ k) → fitsInt32 (w * 2 ^ k) →
      FPAssignWithRound false (-(k : Int)) v ≤ FPAssignWithRound false (-(k : Int)) w := by
    intro h1 h2
    show shl32 v (-(-(k : Int))) ≤ shl32 w (-(-(k : Int)))
    have e : (-(-(k : Int))).toNat = k := by omega
    unfold shl32
    rw [e, wrapInt32_of_fits h1, wrapInt32_of_fits h2]
    exact mul_le_mul_of_nonneg_right hvw hp.le
  refine ⟨narrow, widen, ?_⟩
  intro I2 F2 I F x y hx hy hI
  constructor
  · intro hF hk h1 h2
    have dd : decide (F2 > F) = true := by simp; omega
    have nn : ((F2 : Int) - (F : Int)) = (k : Int) := by omega
    refine ⟨⟨FPAssignWithRound true k x.value⟩, ⟨FPAssignWithRound true k y.value⟩, ?_, ?_, ?_⟩
    · unfold FixedPoint.ofFixedPoint
      simp only [hI, not_true_eq_false, if_false, dd, nn]
    · unfold FixedPoint.ofFixedPoint
      simp only [hI, not_true_eq_false, if_false, dd, nn]
    · rw [hx, hy]
      exact narrow hk h1 h2
  · intro hF h1 h2
    have dd : decide (F2 > F) = false := by simp; omega
    have nn : ((F2 : Int) - (F : Int)) = -(k : Int) := by omega
    refine ⟨⟨FPAssignWithRound false (-(k : Int)) x.value⟩,
      ⟨FPAssignWithRound false (-(k : Int)) y.value⟩, ?_, ?_, ?_⟩
    · unfold FixedPoint.ofFixedPoint
      simp only [hI, not_true_eq_false, if_false, dd, nn]
    · unfold FixedPoint.ofFixedPoint
      simp only [hI, not_true_eq_false, if_false, dd, nn]
    · rw [hx, hy]
      exact widen h1 h2

/-- Witness of C23: `v = -3 ≤ w = -2`: narrowed by 1 they are `-1` and `-1`, widened by 2
they are `-12` and `-8`. -/
theorem FPAssignWithRound_monotone_witness :
    (FPAssignWithRound true 1 (-3) = -1 ∧ FPAssignWithRound true 1 (-2) = -1
      ∧ FPAssignWithRound false (-2) (-3) = -12 ∧ FPAssignWithRound false (-2) (-2) = -8)
    ∧ FPAssignWithRound true ((1 : Nat) : Int) (-3) ≤ FPAssignWithRound true ((1 : Nat) : Int) (-2) :=
  ⟨by decide, (FPAssignWithRound_monotone 1 (-3) (-2) (by decide)).1 (by decide) (by decide)
    (by decide)⟩

/-! ## Symmetry of the precision-preserving multiply -/

/-- The sum of three `int`s does not depend on which of the last two is added first. -/
theorem add32_right_comm (x y z : Int) : add32 (add32 x y) z = add32 (add32 x z) y := by
  unfold add32 wrapInt32
  omega

/-- C24: at the odd shift `N = 3` the results for `(3, 7)` and `(7, 3)` are `1` and `2`,
the operands being split at `N / 2 = 1` and `N - N / 2 = 2` bits; for every even `N` the
results for `(l, r)` and `(r, l)` are equal. -/
theorem FPMulImplementation_symmetric_iff_even (N l r : Int) (hN : N % 2 = 0) :
    (FPMulImplementation true 3 3 7 = 1 ∧ FPMulImplementation true 3 7 3 = 2
      ∧ FPMulImplementation true 3 3 7 ≠ FPMulImplementation true 3 7 3
      ∧ Int.tdiv 3 2 = 1 ∧ (3 : Int) - Int.tdiv 3 2 = 2)
    ∧ FPMulImplementation true N l r = FPMulImplementation true N r l := by
  refine ⟨by decide, ?_⟩
  have hd : Int.tdiv N 2 = N / 2 := Int.tdiv_eq_ediv_of_dvd (Int.dvd_of_emod_eq_zero hN)
  have hr : N - N / 2 = N / 2 := by omega
  unfold FPMulImplementation
  simp only [hd, hr]
  rw [add32_right_comm]
  unfold mul32
  rw [mul_comm (shr32 l (N / 2)) (shr32 r (N / 2))]

/-- Witness of C24: `N = 4`, `l = 29`, `r = 23`: both orders give `41`. -/
theorem FPMulImplementation_symmetric_iff_even_witness :
    (FPMulImplementation true 4 29 23 = 41 ∧ FPMulImplementation true 4 23 29 = 41)
    ∧ FPMulImplementation true 4 29 23 = FPMulImplementation true 4 23 29 :=
  ⟨by decide, (FPMulImplementation_symmetric_iff_even 4 29 23 (by decide)).2⟩

end vigra
